import Mathlib

set_option maxRecDepth 4000

/-!
Shallow embedding of the DTVM EVM interpreter core
(`src/evm/interpreter.h`, `src/evm/interpreter.cpp`, `src/evm/opcode.h`).

A 256-bit Word (`zen::evm::UInt256`) is 32 raw bytes stored little-endian;
we model it as a `List Nat` of length 32 with every entry `< 256`
(the well-formedness predicate `WordWf`). Machine integers of the C++
code are modelled as `Nat` with explicit truncation (`% 2^16` for the
`uint16_t` intermediates, `% 2^64` for `size_t` sums) at exactly the
places the C++ types force one.
-/

namespace DTVM

/-- Little-endian value of a byte list: byte at index 0 is least significant.
This is the abstraction function for `zen::evm::UInt256.Bytes`. -/
def val : List Nat → Nat
  | [] => 0
  | b :: bs => b + 256 * val bs

/-- Well-formed word: exactly 32 bytes, each a genuine byte value.
(In C++ this is enforced by the types `std::array<uint8_t, 32>`.) -/
def WordWf (w : List Nat) : Prop := w.length = 32 ∧ ∀ x ∈ w, x < 256

instance : DecidablePred WordWf := fun w =>
  decidable_of_iff (w.length = 32 ∧ ∀ x ∈ w, x < 256) Iff.rfl

/-- The all-zero word (`zen::evm::UInt256 Res{}` default initialisation). -/
def zeroWord : List Nat := List.replicate 32 0

/-- Byte-wise addition with carry, from `addUInt256` in interpreter.cpp:
`uint16_t Sum = A.Bytes[i] + B.Bytes[i] + Carry; Res.Bytes[i] = Sum & 0xFF;
Carry = Sum >> 8;` iterated over the 32 little-endian bytes. The `% 65536`
is the `uint16_t` narrowing of `Sum` (never active for byte inputs). -/
def addBytes : List Nat → List Nat → Nat → List Nat
  | a :: as, b :: bs, c =>
    let s := (a + b + c) % 65536
    s % 256 :: addBytes as bs (s / 256)
  | _, _, _ => []

/-- `addUInt256(A, B)`: 32-byte add, final carry out of byte 31 discarded. -/
def addUInt256 (A B : List Nat) : List Nat := addBytes A B 0

/-- Byte-wise subtraction with borrow, from the SUB case of
`BaseInterpreter::interpret`: `int16_t Diff = A.Bytes[i] - B.Bytes[i] - Borrow;
if (Diff < 0) { Diff += 256; Borrow = 1; } else Borrow = 0;
Res.Bytes[i] = Diff & 0xFF;`. -/
def subBytes : List Nat → List Nat → Nat → List Nat
  | a :: as, b :: bs, br =>
    let d : Int := (a : Int) - (b : Int) - (br : Int)
    if d < 0 then (d + 256).toNat :: subBytes as bs 1
    else d.toNat :: subBytes as bs 0
  | _, _, _ => []

/-- `A - B (mod 2^256)` as computed by the SUB opcode handler. -/
def subUInt256 (A B : List Nat) : List Nat := subBytes A B 0

/-- The inner `while (Carry)` loop of the MUL case, acting on the suffix of
the 64-entry `uint16_t Temp[64]` array starting at the write index `idx = k`:
`uint16_t Sum = Temp[idx] + Carry; Temp[idx] = Sum & 0xFF; Carry = Sum >> 8;
++idx;`. The boolean records whether the loop finished inside the array:
it is `false` exactly when the carry is still nonzero once the suffix is
exhausted, i.e. when the C++ loop would write at an index `> 63`
(out of bounds of `Temp`). `% 65536` is the `uint16_t` narrowing of `Sum`. -/
def propCarry : Nat → List Nat → List Nat × Bool
  | c, [] => ([], c == 0)
  | c, t :: ts =>
    if c = 0 then (t :: ts, true)
    else
      let s := (t + c) % 65536
      let r := propCarry (s / 256) ts
      (s % 256 :: r.1, r.2)

/-- One partial-product accumulation of the MUL schoolbook loop body for a
pair `(i, j)`: add `p = A.Bytes[i] * B.Bytes[j]` into `Temp` at position
`k = i + j` with carry propagation. -/
def mulStep (t : List Nat) (k p : Nat) : List Nat × Bool :=
  let r := propCarry p (t.drop k)
  (t.take k ++ r.1, r.2)

/-- Body of the inner `for (j = 0; j < 32; ++j)` loop of the MUL case:
`uint16_t P = A.Bytes[i] * B.Bytes[j];` accumulated at `k = i + j`.
The flag records that carry propagation stayed inside `Temp[64]`. -/
def mulInner (A B : List Nat) (i : Nat) (tj : List Nat × Bool) (j : Nat) :
    List Nat × Bool :=
  let r := mulStep tj.1 (i + j) (A.getD i 0 * B.getD j 0)
  (r.1, tj.2 && r.2)

/-- Body of the outer `for (i = 0; i < 32; ++i)` loop of the MUL case. -/
def mulOuter (A B : List Nat) (ti : List Nat × Bool) (i : Nat) :
    List Nat × Bool :=
  (List.range 32).foldl (mulInner A B i) ti

/-- The double loop `for i in 0..31, for j in 0..31` of the MUL case,
starting from `uint16_t Temp[64] = {0}`. The boolean is the conjunction of
the in-bounds flags of every inner carry-propagation loop. -/
def mulLoop (A B : List Nat) : List Nat × Bool :=
  (List.range 32).foldl (mulOuter A B) (List.replicate 64 0, true)

/-- `MUL` result: the low 32 bytes of the 512-bit intermediate
(`Res.Bytes[i] = Temp[i]` for `i < 32`). -/
def mulUInt256 (A B : List Nat) : List Nat := (mulLoop A B).1.take 32

/-- `true` iff no carry-propagation write of the MUL loops would go past
index 63 of `Temp[64]`. -/
def mulOk (A B : List Nat) : Bool := (mulLoop A B).2

/-- Weight contributed by row `i`, columns `js`, of the schoolbook loop:
`Σ_j A[i]·B[j]·256^(i+j)`. Specification device (not from the source). -/
def rowWeight (A B : List Nat) (i : Nat) (js : List Nat) : Nat :=
  (js.map (fun j => A.getD i 0 * B.getD j 0 * 256 ^ (i + j))).sum

/-- Weight contributed by rows `is` (each with all 32 columns).
Specification device (not from the source). -/
def totalWeight (A B : List Nat) (is : List Nat) : Nat :=
  (is.map (fun i => rowWeight A B i (List.range 32))).sum

/-! ### The interpreter: frames, state, one-step function, driver loop -/

/-- Fault kinds raised by `BaseInterpreter::interpret` via
`common::getError`. Modelled from the spec: `common/errors.h` is not among
the sources; §7 of the spec fixes this closed set of `ErrorCode` values. -/
inductive EVMError where
  | UnexpectedNumArgs
  | UnexpectedEnd
  | UnsupportedOpcode
  deriving DecidableEq

/-- `EVMFrame::MAX_STACK` — the declared stack capacity (1024). -/
def MAX_STACK : Nat := 1024

/-- EVM call frame (`zen::evm::EVMFrame`): the code buffer with `Pc` as an
index into it (`CodeEnd` = `code.length`), the data stack as a list with
head = top (`Stack[Sp-1]`), and the byte `Memory`. `GasLeft` and
`CtrlStack` are carried by the C++ struct but never read or written by any
opcode in scope, so they are omitted. `push` is cons (the C++ `push` only
asserts `Sp < MAX_STACK`; the store itself is unconditional). -/
structure EVMFrame where
  code : List Nat
  pc : Nat
  stack : List (List Nat)
  memory : List Nat
  deriving DecidableEq

/-- Machine state: the frame chain (head = current frame, tail = the
`PrevFrame` chain) plus the `InterpreterExecContext`'s `ReturnData`. -/
structure MachState where
  frames : List EVMFrame
  retData : List Nat
  deriving DecidableEq

/-- How `interpret()` returned: `Halted` = STOP / fell off the code end,
`Returned` = RETURN executed in the outermost frame. -/
inductive TermKind where
  | Halted
  | Returned
  deriving DecidableEq

/-- Result of one iteration of the `while (true)` loop: continue with a new
state, return from `interpret()`, or throw. A `fault` carries the machine
state at the moment of the `throw` (the opcode byte has been consumed by
`*PcRef++`; nothing else has been modified). -/
inductive StepRes where
  | next (s : MachState)
  | done (k : TermKind) (rd : List Nat)
  | fault (e : EVMError) (s : MachState)
  deriving DecidableEq

/-- The MSTORE/RETURN offset decode, `for (int i = 7; i >= 0; --i)
Offset = (Offset << 8) | OffsetVal.Bytes[i];`, unrolled. For `uint8_t`
bytes `(Offset << 8) | b` is `Offset * 256 + b`. -/
def low64 (w : List Nat) : Nat :=
  (((((((0 * 256 + w.getD 7 0) * 256 + w.getD 6 0) * 256 + w.getD 5 0) * 256
      + w.getD 4 0) * 256 + w.getD 3 0) * 256 + w.getD 2 0) * 256
      + w.getD 1 0) * 256 + w.getD 0 0

/-- `if (Memory.size() < NeedSize) Memory.resize(NeedSize, 0);` — grow-only
resize, new bytes zero-filled. -/
def growMem (m : List Nat) (need : Nat) : List Nat :=
  if m.length < need then m ++ List.replicate (need - m.length) 0 else m

/-- The MSTORE store loop
`for (i = 0; i < 32; ++i) Memory[Off + i] = Value.Bytes[31 - i];`
(big-endian write). An out-of-range index would be undefined behaviour in
C++ (`operator[]` past `size()`); `List.set` models it as a no-op. -/
def storeWordBE (m : List Nat) (off : Nat) (value : List Nat) : List Nat :=
  (List.range 32).foldl (fun acc i => acc.set (off + i) (value.getD (31 - i) 0)) m

/-- PUSH immediate load: `UInt256 Val{}` zero-initialised, then
`Val.Bytes[i] = *(PcRef + NumBytes - 1 - i)` for `i < NumBytes`; `pc` is
the index of the first immediate byte. -/
def pushWord (code : List Nat) (pc n : Nat) : List Nat :=
  (List.range 32).map (fun i => if i < n then code.getD (pc + (n - 1 - i)) 0 else 0)

/-- `std::swap(Frame->peek(0), Frame->peek(N))` on the head-is-top stack. -/
def swapStack (st : List (List Nat)) (n : Nat) : List (List Nat) :=
  (st.set 0 (st.getD n zeroWord)).set n (st.getD 0 zeroWord)

/-- Big-endian value of a byte sequence (most significant byte first).
Specification device used to state what a PUSH immediate denotes. -/
def beVal (bs : List Nat) : Nat := bs.foldl (fun acc x => acc * 256 + x) 0

/-- One iteration of the interpreter's `while (true)` loop
(`BaseInterpreter::interpret`), for the current frame at the head of the
chain. Branch order follows the C++ `switch` plus the `default:` range
tests; all cases are disjoint byte tests, so the order is immaterial.
`size_t` sums (`Off + 32`, `Off + Len`) carry their `% 2^64` narrowing. -/
def step (s : MachState) : StepRes :=
  match s.frames with
  | [] => .done .Halted s.retData
  | f :: rest =>
    if f.code.length ≤ f.pc then
      -- Pc >= CodeEnd: implicit STOP; freeFrame and resume caller
      match rest with
      | [] => .done .Halted s.retData
      | _ => .next ⟨rest, s.retData⟩
    else
      let op := f.code.getD f.pc 0
      let pc1 := f.pc + 1
      if op = 0x00 then -- STOP
        match rest with
        | [] => .done .Halted s.retData
        | _ => .next ⟨rest, s.retData⟩
      else if op = 0x01 then -- ADD
        match f.stack with
        | b :: a :: st =>
          .next ⟨{ f with pc := pc1, stack := addUInt256 a b :: st } :: rest, s.retData⟩
        | _ => .fault .UnexpectedNumArgs ⟨{ f with pc := pc1 } :: rest, s.retData⟩
      else if op = 0x03 then -- SUB
        match f.stack with
        | b :: a :: st =>
          .next ⟨{ f with pc := pc1, stack := subUInt256 a b :: st } :: rest, s.retData⟩
        | _ => .fault .UnexpectedNumArgs ⟨{ f with pc := pc1 } :: rest, s.retData⟩
      else if op = 0x02 then -- MUL
        match f.stack with
        | b :: a :: st =>
          .next ⟨{ f with pc := pc1, stack := mulUInt256 a b :: st } :: rest, s.retData⟩
        | _ => .fault .UnexpectedNumArgs ⟨{ f with pc := pc1 } :: rest, s.retData⟩
      else if op = 0x50 then -- POP
        match f.stack with
        | _ :: st =>
          .next ⟨{ f with pc := pc1, stack := st } :: rest, s.retData⟩
        | _ => .fault .UnexpectedNumArgs ⟨{ f with pc := pc1 } :: rest, s.retData⟩
      else if op = 0x52 then -- MSTORE
        match f.stack with
        | offv :: value :: st =>
          let off := low64 offv
          let need := (off + 32) % 2 ^ 64
          let m2 := storeWordBE (growMem f.memory need) off value
          .next ⟨{ f with pc := pc1, stack := st, memory := m2 } :: rest, s.retData⟩
        | _ => .fault .UnexpectedNumArgs ⟨{ f with pc := pc1 } :: rest, s.retData⟩
      else if op = 0xF3 then -- RETURN
        match f.stack with
        | offv :: sizev :: _ =>
          let off := low64 offv
          let len := low64 sizev
          let m1 := growMem f.memory ((off + len) % 2 ^ 64)
          let rd := (m1.drop off).take len
          match rest with
          | [] => .done .Returned rd
          | _ => .next ⟨rest, rd⟩
        | _ => .fault .UnexpectedNumArgs ⟨{ f with pc := pc1 } :: rest, s.retData⟩
      else if 0x60 ≤ op ∧ op ≤ 0x7F then -- PUSH1..PUSH32
        let n := op - 0x5F
        if f.code.length < pc1 + n then
          .fault .UnexpectedEnd ⟨{ f with pc := pc1 } :: rest, s.retData⟩
        else
          .next ⟨{ f with pc := pc1 + n, stack := pushWord f.code pc1 n :: f.stack } :: rest,
            s.retData⟩
      else if 0x80 ≤ op ∧ op ≤ 0x8F then -- DUP1..DUP16
        let n := op - 0x7F
        if f.stack.length < n then
          .fault .UnexpectedNumArgs ⟨{ f with pc := pc1 } :: rest, s.retData⟩
        else
          .next ⟨{ f with pc := pc1, stack := f.stack.getD (n - 1) zeroWord :: f.stack } :: rest,
            s.retData⟩
      else if 0x90 ≤ op ∧ op ≤ 0x9F then -- SWAP1..SWAP16
        let n := op - 0x8F
        if f.stack.length ≤ n then
          .fault .UnexpectedNumArgs ⟨{ f with pc := pc1 } :: rest, s.retData⟩
        else
          .next ⟨{ f with pc := pc1, stack := swapStack f.stack n } :: rest, s.retData⟩
      else
        .fault .UnsupportedOpcode ⟨{ f with pc := pc1 } :: rest, s.retData⟩

/-- `InterpreterExecContext::allocFrame` for the outermost call:
`Pc = CodePtr`, `CodeEnd = CodePtr + CodeSize`, default-initialised stack
and memory, empty return data. -/
def initState (code : List Nat) : MachState :=
  ⟨[⟨code, 0, [], []⟩], []⟩

/-- Observable outcome of `interpret()`. -/
inductive RunOut where
  | halted (rd : List Nat)
  | returned (rd : List Nat)
  | faulted (e : EVMError)
  | outOfFuel
  deriving DecidableEq

/-- Fuel-indexed driver for the interpreter loop. -/
def run : Nat → MachState → RunOut
  | 0, _ => .outOfFuel
  | fuel + 1, s =>
    match step s with
    | .next s' => run fuel s'
    | .done .Halted rd => .halted rd
    | .done .Returned rd => .returned rd
    | .fault e _ => .faulted e

/-- Iterate `step` while it continues; stop on termination or fault. -/
def stepN : Nat → MachState → MachState
  | 0, s => s
  | n + 1, s =>
    match step s with
    | .next s' => stepN n s'
    | _ => s

/-- The `N` consecutive `PUSH1 0x00` instructions program. -/
def pushProg (n : Nat) : List Nat := (List.replicate n [0x60, 0x00]).flatten

/-- The required operand count checked by each opcode handler before any
pop: 2 for ADD/MUL/SUB/MSTORE/RETURN, 1 for POP, `N` for DUPN, `N+1` for
SWAPN (`SWAPN` faults when `Height <= N`). `none` for opcodes that pop
nothing (STOP, PUSH) or are unsupported. Specification device summarising
the guards of `BaseInterpreter::interpret`. -/
def reqHeight (op : Nat) : Option Nat :=
  if op = 0x01 ∨ op = 0x02 ∨ op = 0x03 then some 2
  else if op = 0x50 then some 1
  else if op = 0x52 ∨ op = 0xF3 then some 2
  else if 0x80 ≤ op ∧ op ≤ 0x8F then some (op - 0x7F)
  else if 0x90 ≤ op ∧ op ≤ 0x9F then some (op - 0x8F + 1)
  else none

end DTVM

namespace DTVM

/-! ### Generic facts about little-endian byte values -/

theorem val_lt {l : List Nat} (h : ∀ x ∈ l, x < 256) : val l < 256 ^ l.length := by
  induction l with
  | nil => simp [val]
  | cons b bs ih =>
    have hb : b < 256 := h b (by simp)
    have hbs : val bs < 256 ^ bs.length := ih (fun x hx => h x (by simp [hx]))
    simp only [val, List.length_cons, pow_succ]
    calc b + 256 * val bs < 256 * (val bs + 1) := by omega
      _ ≤ 256 * 256 ^ bs.length := Nat.mul_le_mul_left 256 (by omega)
      _ = 256 ^ bs.length * 256 := by ring

theorem digit_mod (x y n : Nat) (hx : x < 256) :
    (x + 256 * y) % 256 ^ (n + 1) = x + 256 * (y % 256 ^ n) := by
  have hP : (0:Nat) < 256 ^ n := pow_pos (by omega) n
  have hr : y % 256 ^ n < 256 ^ n := Nat.mod_lt _ hP
  have hsplit : x + 256 * y = x + 256 * (y % 256 ^ n) + (y / 256 ^ n) * 256 ^ (n + 1) := by
    conv_lhs => rw [← Nat.div_add_mod y (256 ^ n)]
    ring
  rw [hsplit, Nat.add_mul_mod_self_right]
  apply Nat.mod_eq_of_lt
  rw [pow_succ, Nat.mul_comm (256 ^ n) 256]
  omega

theorem val_inj {a b : List Nat} (hlen : a.length = b.length)
    (ha : ∀ x ∈ a, x < 256) (hb : ∀ x ∈ b, x < 256) (hv : val a = val b) :
    a = b := by
  induction a generalizing b with
  | nil => cases b with
    | nil => rfl
    | cons y ys => simp at hlen
  | cons x xs ih =>
    cases b with
    | nil => simp at hlen
    | cons y ys =>
      have hx : x < 256 := ha x (by simp)
      have hy : y < 256 := hb y (by simp)
      simp only [val] at hv
      have hxy : x = y ∧ val xs = val ys := by omega
      have := ih (by simpa using hlen) (fun z hz => ha z (by simp [hz]))
        (fun z hz => hb z (by simp [hz])) hxy.2
      simp [hxy.1, this]

/-! ### Addition: `addUInt256` -/

theorem addBytes_length : ∀ (a b : List Nat) (c : Nat),
    (addBytes a b c).length = min a.length b.length := by
  intro a
  induction a with
  | nil => intro b c; cases b <;> simp [addBytes]
  | cons x xs ih =>
    intro b c
    cases b with
    | nil => simp [addBytes]
    | cons y ys => simp [addBytes, ih]; omega

theorem addBytes_bytes_lt : ∀ (a b : List Nat) (c : Nat),
    ∀ x ∈ addBytes a b c, x < 256 := by
  intro a
  induction a with
  | nil => intro b c x hx; cases b <;> simp [addBytes] at hx
  | cons p ps ih =>
    intro b c x hx
    cases b with
    | nil => simp [addBytes] at hx
    | cons q qs =>
      simp only [addBytes, List.mem_cons] at hx
      rcases hx with h | h
      · subst h; exact Nat.mod_lt _ (by omega)
      · exact ih qs _ x h

theorem addBytes_val : ∀ (a b : List Nat) (c : Nat),
    a.length = b.length → (∀ x ∈ a, x < 256) → (∀ x ∈ b, x < 256) → c ≤ 1 →
    val (addBytes a b c) = (val a + val b + c) % 256 ^ a.length := by
  intro a
  induction a with
  | nil =>
    intro b c hlen _ _ hc
    cases b with
    | nil => simp [addBytes, val]; omega
    | cons y ys => simp at hlen
  | cons x xs ih =>
    intro b c hlen ha hb hc
    cases b with
    | nil => simp at hlen
    | cons y ys =>
      have hx : x < 256 := ha x (by simp)
      have hy : y < 256 := hb y (by simp)
      have hs : (x + y + c) % 65536 = x + y + c := Nat.mod_eq_of_lt (by omega)
      simp only [addBytes, val, hs]
      have hrec := ih ys ((x + y + c) / 256) (by simpa using hlen)
        (fun z hz => ha z (by simp [hz])) (fun z hz => hb z (by simp [hz]))
        (by omega)
      rw [hrec]
      have hd := digit_mod ((x + y + c) % 256) (val xs + val ys + (x + y + c) / 256)
        xs.length (Nat.mod_lt _ (by omega))
      rw [List.length_cons, ← hd]
      congr 1
      omega

theorem addBytes_comm : ∀ (a b : List Nat) (c : Nat),
    addBytes a b c = addBytes b a c := by
  intro a
  induction a with
  | nil => intro b c; cases b <;> rfl
  | cons x xs ih =>
    intro b c
    cases b with
    | nil => rfl
    | cons y ys =>
      simp only [addBytes]
      rw [Nat.add_comm x y, ih]

/-! ### Subtraction: the SUB handler's byte loop -/

theorem subBytes_length : ∀ (a b : List Nat) (br : Nat),
    (subBytes a b br).length = min a.length b.length := by
  intro a
  induction a with
  | nil => intro b br; cases b <;> simp [subBytes]
  | cons x xs ih =>
    intro b br
    cases b with
    | nil => simp [subBytes]
    | cons y ys =>
      simp only [subBytes]
      split <;> simp [ih] <;> omega

theorem subBytes_bytes_lt : ∀ (a b : List Nat) (br : Nat),
    (∀ x ∈ a, x < 256) → ∀ x ∈ subBytes a b br, x < 256 := by
  intro a
  induction a with
  | nil => intro b br _ x hx; cases b <;> simp [subBytes] at hx
  | cons p ps ih =>
    intro b br ha x hx
    cases b with
    | nil => simp [subBytes] at hx
    | cons q qs =>
      have hp : p < 256 := ha p (by simp)
      simp only [subBytes, List.mem_cons] at hx
      split at hx <;> simp only [List.mem_cons] at hx <;>
        rcases hx with h | h
      · subst h; omega
      · exact ih qs 1 (fun z hz => ha z (by simp [hz])) x h
      · subst h; omega
      · exact ih qs 0 (fun z hz => ha z (by simp [hz])) x h

theorem subBytes_val_modEq : ∀ (a b : List Nat) (br : Nat),
    a.length = b.length → (∀ x ∈ b, x < 256) → br ≤ 1 →
    Nat.ModEq (256 ^ a.length) (val (subBytes a b br) + val b + br) (val a) := by
  intro a
  induction a with
  | nil =>
    intro b br hlen _ hbr
    cases b with
    | nil =>
      simp only [List.length_nil, pow_zero]
      exact Nat.modEq_one
    | cons y ys => simp at hlen
  | cons x xs ih =>
    intro b br hlen hb hbr
    cases b with
    | nil => simp at hlen
    | cons y ys =>
      have hy : y < 256 := hb y (by simp)
      simp only [subBytes]
      split
      case isTrue hneg =>
        -- borrow: output byte is x + 256 - y - br, new borrow 1
        have ho : (((x : Int) - y - br + 256).toNat : Nat) + y + br = x + 256 := by
          omega
        have hrec := ih ys 1 (by simpa using hlen)
          (fun z hz => hb z (by simp [hz])) (le_refl 1)
        simp only [val, List.length_cons]
        have hmul := Nat.ModEq.mul_left' (c := 256) hrec
        have : Nat.ModEq (256 * 256 ^ xs.length)
            (256 * (val (subBytes xs ys 1) + val ys + 1)) (256 * val xs) := hmul
        calc ((x : Int) - y - br + 256).toNat + 256 * val (subBytes xs ys 1) + (y + 256 * val ys) + br
            = (((x : Int) - y - br + 256).toNat + y + br) + 256 * (val (subBytes xs ys 1) + val ys) := by ring
          _ = x + 256 + 256 * (val (subBytes xs ys 1) + val ys) := by rw [ho]
          _ = x + 256 * (val (subBytes xs ys 1) + val ys + 1) := by ring
          _ ≡ x + 256 * val xs [MOD 256 ^ (xs.length + 1)] := by
              rw [pow_succ, Nat.mul_comm (256 ^ xs.length) 256]
              exact Nat.ModEq.add_left x this
      case isFalse hpos =>
        have ho : (((x : Int) - y - br).toNat : Nat) + y + br = x := by omega
        have hrec := ih ys 0 (by simpa using hlen)
          (fun z hz => hb z (by simp [hz])) (by omega)
        simp only [val, List.length_cons]
        have hmul := Nat.ModEq.mul_left' (c := 256) hrec
        have : Nat.ModEq (256 * 256 ^ xs.length)
            (256 * (val (subBytes xs ys 0) + val ys + 0)) (256 * val xs) := hmul
        calc ((x : Int) - y - br).toNat + 256 * val (subBytes xs ys 0) + (y + 256 * val ys) + br
            = (((x : Int) - y - br).toNat + y + br) + 256 * (val (subBytes xs ys 0) + val ys + 0) := by ring
          _ = x + 256 * (val (subBytes xs ys 0) + val ys + 0) := by rw [ho]
          _ ≡ x + 256 * val xs [MOD 256 ^ (xs.length + 1)] := by
              rw [pow_succ, Nat.mul_comm (256 ^ xs.length) 256]
              exact Nat.ModEq.add_left x this

/-! ### Multiplication: the MUL handler's schoolbook loops -/

theorem val_append (a b : List Nat) :
    val (a ++ b) = val a + 256 ^ a.length * val b := by
  induction a with
  | nil => simp [val]
  | cons x xs ih =>
    have hc : (x :: xs) ++ b = x :: (xs ++ b) := rfl
    rw [hc]
    simp only [val, List.length_cons, pow_succ]
    rw [ih]
    ring

theorem getD_lt {l : List Nat} (h : ∀ x ∈ l, x < 256) (i : Nat) :
    l.getD i 0 < 256 := by
  rcases Nat.lt_or_ge i l.length with hlt | hge
  · rw [List.getD_eq_getElem _ _ hlt]
    exact h _ (List.getElem_mem hlt)
  · rw [List.getD_eq_default _ _ hge]
    omega

theorem propCarry_length : ∀ (ts : List Nat) (c : Nat),
    (propCarry c ts).1.length = ts.length := by
  intro ts
  induction ts with
  | nil => intro c; rfl
  | cons t ts ih =>
    intro c
    simp only [propCarry]
    split
    · rfl
    · simp [ih]

theorem propCarry_bytes_lt : ∀ (ts : List Nat) (c : Nat),
    (∀ x ∈ ts, x < 256) → ∀ x ∈ (propCarry c ts).1, x < 256 := by
  intro ts
  induction ts with
  | nil => intro c _ x hx; simp [propCarry] at hx
  | cons t ts ih =>
    intro c h x hx
    simp only [propCarry] at hx
    split at hx
    · exact h x hx
    · simp only [List.mem_cons] at hx
      rcases hx with hx | hx
      · subst hx; exact Nat.mod_lt _ (by omega)
      · exact ih _ (fun z hz => h z (by simp [hz])) x hx

theorem propCarry_spec : ∀ (ts : List Nat) (c : Nat),
    (∀ x ∈ ts, x < 256) → c ≤ 65280 →
    ((propCarry c ts).2 = true ↔ val ts + c < 256 ^ ts.length) ∧
    ((propCarry c ts).2 = true → val (propCarry c ts).1 = val ts + c) := by
  intro ts
  induction ts with
  | nil =>
    intro c _ _
    constructor
    · simp only [propCarry, val, List.length_nil, pow_zero, beq_iff_eq]
      constructor <;> intro h <;> omega
    · intro h
      simp only [propCarry, beq_iff_eq] at h
      simp [propCarry, val, h]
  | cons t ts ih =>
    intro c hts hc
    have ht : t < 256 := hts t (by simp)
    have htail : ∀ x ∈ ts, x < 256 := fun z hz => hts z (by simp [hz])
    by_cases hc0 : c = 0
    · subst hc0
      have hred : propCarry 0 (t :: ts) = (t :: ts, true) := by simp [propCarry]
      rw [hred]
      exact ⟨⟨fun _ => by simpa using val_lt hts, fun _ => rfl⟩, fun _ => by simp⟩
    · have hs : (t + c) % 65536 = t + c := Nat.mod_eq_of_lt (by omega)
      have hcar : (t + c) / 256 ≤ 65280 := by omega
      obtain ⟨ihOk, ihVal⟩ := ih ((t + c) / 256) htail hcar
      simp only [propCarry, if_neg hc0, hs]
      constructor
      · rw [ihOk]
        simp only [val, List.length_cons, pow_succ]
        omega
      · intro hok
        simp only [val, ihVal hok]
        omega

theorem mulStep_spec (t : List Nat) (k p : Nat)
    (hlen : t.length = 64) (ht : ∀ x ∈ t, x < 256) (hp : p ≤ 65280) (hk : k ≤ 64)
    (hbound : val t + p * 256 ^ k < 256 ^ 64) :
    (mulStep t k p).1.length = 64 ∧ (∀ x ∈ (mulStep t k p).1, x < 256) ∧
    val (mulStep t k p).1 = val t + p * 256 ^ k ∧ (mulStep t k p).2 = true := by
  have htake : (t.take k).length = k := by
    rw [List.length_take, hlen]; omega
  have hdrop : (t.drop k).length = 64 - k := by
    rw [List.length_drop, hlen]
  have hdropb : ∀ x ∈ t.drop k, x < 256 := fun x hx => ht x (List.mem_of_mem_drop hx)
  have htakeb : ∀ x ∈ t.take k, x < 256 := fun x hx => ht x (List.mem_of_mem_take hx)
  have hsplit : val t = val (t.take k) + 256 ^ k * val (t.drop k) := by
    conv_lhs => rw [← List.take_append_drop k t]
    rw [val_append, htake]
  obtain ⟨pcOk, pcVal⟩ := propCarry_spec (t.drop k) p hdropb hp
  have hkey : val (t.drop k) + p < 256 ^ (64 - k) := by
    have hsum : 256 ^ k * (val (t.drop k) + p) < 256 ^ k * 256 ^ (64 - k) := by
      rw [← pow_add]
      have h2 : k + (64 - k) = 64 := by omega
      rw [h2, Nat.mul_add, Nat.mul_comm (256 ^ k) p]
      omega
    exact Nat.lt_of_mul_lt_mul_left hsum
  have hok : (propCarry p (t.drop k)).2 = true := by
    rw [pcOk, hdrop]; exact hkey
  refine ⟨?_, ?_, ?_, ?_⟩
  · simp only [mulStep, List.length_append, htake, propCarry_length, hdrop]
    omega
  · intro x hx
    simp only [mulStep, List.mem_append] at hx
    rcases hx with hx | hx
    · exact htakeb x hx
    · exact propCarry_bytes_lt _ _ hdropb x hx
  · have hpk : 256 ^ k * p = p * 256 ^ k := Nat.mul_comm _ _
    simp only [mulStep, val_append, htake, pcVal hok, Nat.mul_add]
    omega
  · simpa [mulStep] using hok

theorem innerFold_spec (A B : List Nat) (hA : ∀ x ∈ A, x < 256)
    (hB : ∀ x ∈ B, x < 256) (i : Nat) (hi : i ≤ 32) :
    ∀ (js : List Nat) (t : List Nat) (ok : Bool), (∀ j ∈ js, j ≤ 32) →
    t.length = 64 → (∀ x ∈ t, x < 256) →
    val t + rowWeight A B i js < 256 ^ 64 →
    (js.foldl (mulInner A B i) (t, ok)).1.length = 64 ∧
    (∀ x ∈ (js.foldl (mulInner A B i) (t, ok)).1, x < 256) ∧
    val (js.foldl (mulInner A B i) (t, ok)).1 = val t + rowWeight A B i js ∧
    (js.foldl (mulInner A B i) (t, ok)).2 = ok := by
  intro js
  induction js with
  | nil =>
    intro t ok _ hlen ht _
    refine ⟨hlen, ht, ?_, rfl⟩
    simp [rowWeight]
  | cons j js ih =>
    intro t ok hjs hlen ht hbound
    have hj : j ≤ 32 := hjs j (by simp)
    have hw : rowWeight A B i (j :: js)
        = A.getD i 0 * B.getD j 0 * 256 ^ (i + j) + rowWeight A B i js := by
      simp [rowWeight]
    have hp : A.getD i 0 * B.getD j 0 ≤ 65280 := by
      have h1 := getD_lt hA i
      have h2 := getD_lt hB j
      calc A.getD i 0 * B.getD j 0 ≤ 255 * 255 := Nat.mul_le_mul (by omega) (by omega)
        _ ≤ 65280 := by omega
    obtain ⟨ml, mb, mv, mo⟩ := mulStep_spec t (i + j) (A.getD i 0 * B.getD j 0)
      hlen ht hp (by omega) (by rw [hw] at hbound; omega)
    have hstep : mulInner A B i (t, ok) j
        = ((mulStep t (i + j) (A.getD i 0 * B.getD j 0)).1, ok) := by
      simp only [mulInner, mo, Bool.and_true]
    rw [List.foldl_cons, hstep]
    obtain ⟨rl, rb, rv, ro⟩ := ih _ ok (fun z hz => hjs z (by simp [hz])) ml mb
      (by rw [hw] at hbound; rw [mv]; omega)
    refine ⟨rl, rb, ?_, ro⟩
    rw [rv, mv, hw]
    omega

theorem outerFold_spec (A B : List Nat) (hA : ∀ x ∈ A, x < 256)
    (hB : ∀ x ∈ B, x < 256) :
    ∀ (is : List Nat) (t : List Nat) (ok : Bool), (∀ i ∈ is, i ≤ 32) →
    t.length = 64 → (∀ x ∈ t, x < 256) →
    val t + totalWeight A B is < 256 ^ 64 →
    (is.foldl (mulOuter A B) (t, ok)).1.length = 64 ∧
    (∀ x ∈ (is.foldl (mulOuter A B) (t, ok)).1, x < 256) ∧
    val (is.foldl (mulOuter A B) (t, ok)).1 = val t + totalWeight A B is ∧
    (is.foldl (mulOuter A B) (t, ok)).2 = ok := by
  intro is
  induction is with
  | nil =>
    intro t ok _ hlen ht _
    refine ⟨hlen, ht, ?_, rfl⟩
    simp [totalWeight]
  | cons i is ih =>
    intro t ok his hlen ht hbound
    have hi : i ≤ 32 := his i (by simp)
    have hw : totalWeight A B (i :: is)
        = rowWeight A B i (List.range 32) + totalWeight A B is := by
      simp [totalWeight]
    obtain ⟨ml, mb, mv, mo⟩ := innerFold_spec A B hA hB i hi (List.range 32) t ok
      (fun z hz => by simp only [List.mem_range] at hz; omega) hlen ht
      (by rw [hw] at hbound; omega)
    have houter2 : mulOuter A B (t, ok) i
        = (((List.range 32).foldl (mulInner A B i) (t, ok)).1, ok) :=
      Prod.ext_iff.mpr ⟨rfl, mo⟩
    rw [List.foldl_cons, houter2]
    obtain ⟨rl, rb, rv, ro⟩ := ih _ ok (fun z hz => his z (by simp [hz])) ml mb
      (by rw [hw] at hbound; rw [mv]; omega)
    refine ⟨rl, rb, ?_, ro⟩
    rw [rv, mv, hw]
    omega

theorem val_eq_sum_range (l : List Nat) :
    val l = ((List.range l.length).map (fun j => l.getD j 0 * 256 ^ j)).sum := by
  induction l with
  | nil => simp [val]
  | cons x xs ih =>
    simp only [val, List.length_cons, List.range_succ_eq_map, List.map_cons,
      List.map_map, List.sum_cons, List.getD_cons_zero, pow_zero, Nat.mul_one]
    congr 1
    rw [ih]
    have hmap : ((List.range xs.length).map
          (fun j => ((x :: xs).getD (Nat.succ j) 0 * 256 ^ Nat.succ j)) : List Nat)
        = (List.range xs.length).map (fun j => 256 * (xs.getD j 0 * 256 ^ j)) := by
      apply List.map_congr_left
      intro j _
      simp only [List.getD_cons_succ, pow_succ]
      ring
    calc 256 * ((List.range xs.length).map (fun j => xs.getD j 0 * 256 ^ j)).sum
        = ((List.range xs.length).map (fun j => 256 * (xs.getD j 0 * 256 ^ j))).sum := by
          rw [← List.sum_map_mul_left]
      _ = (List.map ((fun j => (x :: xs).getD j 0 * 256 ^ j) ∘ Nat.succ)
            (List.range xs.length)).sum := by
          rw [← hmap]
          rfl

theorem rowWeight_factor (A B : List Nat) (i : Nat) (js : List Nat) :
    rowWeight A B i js
      = A.getD i 0 * 256 ^ i * (js.map (fun j => B.getD j 0 * 256 ^ j)).sum := by
  induction js with
  | nil => simp [rowWeight]
  | cons j js ih =>
    simp only [rowWeight, List.map_cons, List.sum_cons] at ih ⊢
    rw [ih, pow_add]
    ring

theorem totalWeight_full (A B : List Nat) (hA : A.length = 32) (hB : B.length = 32) :
    totalWeight A B (List.range 32) = val A * val B := by
  have hvB : (List.map (fun j => B.getD j 0 * 256 ^ j) (List.range 32)).sum = val B := by
    rw [val_eq_sum_range B, hB]
  have hvA : (List.map (fun i => A.getD i 0 * 256 ^ i) (List.range 32)).sum = val A := by
    rw [val_eq_sum_range A, hA]
  simp only [totalWeight, rowWeight_factor, hvB]
  rw [← hvA, ← List.sum_map_mul_right]

/-- Summary of the MUL schoolbook loops for well-formed inputs: the 64-entry
intermediate holds exactly `val A * val B` and every carry stayed in bounds. -/
theorem mulLoop_spec (A B : List Nat) (hA : WordWf A) (hB : WordWf B) :
    (mulLoop A B).1.length = 64 ∧ (∀ x ∈ (mulLoop A B).1, x < 256) ∧
    val (mulLoop A B).1 = val A * val B ∧ (mulLoop A B).2 = true := by
  obtain ⟨hAl, hAb⟩ := hA
  obtain ⟨hBl, hBb⟩ := hB
  have hw := totalWeight_full A B hAl hBl
  have hbound : val A * val B < 256 ^ 64 := by
    have h1 : val A < 256 ^ 32 := by
      have := val_lt hAb; rwa [hAl] at this
    have h2 : val B < 256 ^ 32 := by
      have := val_lt hBb; rwa [hBl] at this
    calc val A * val B < 256 ^ 32 * 256 ^ 32 :=
          mul_lt_mul'' h1 h2 (Nat.zero_le _) (Nat.zero_le _)
      _ = 256 ^ 64 := by rw [← pow_add]
  have hrep : val (List.replicate 64 0) = 0 := by decide
  obtain ⟨rl, rb, rv, ro⟩ := outerFold_spec A B hAb hBb (List.range 32)
    (List.replicate 64 0) true
    (fun z hz => by simp only [List.mem_range] at hz; omega)
    (by simp) (by simp)
    (by rw [hrep, hw]; omega)
  refine ⟨rl, rb, ?_, ro⟩
  show val ((List.range 32).foldl (mulOuter A B) (List.replicate 64 0, true)).1
      = val A * val B
  rw [rv, hrep, hw]
  omega

/-! ### Memory helpers: `growMem` and `storeWordBE` -/

theorem growMem_len_ge (m : List Nat) (need : Nat) :
    m.length ≤ (growMem m need).length := by
  unfold growMem
  split <;> simp

theorem growMem_len_need (m : List Nat) (need : Nat) :
    need ≤ (growMem m need).length := by
  unfold growMem
  split
  case isTrue h =>
    simp only [List.length_append, List.length_replicate]
    omega
  case isFalse h => omega

theorem growMem_getD_old (m : List Nat) (need i : Nat) (h : i < m.length) :
    (growMem m need).getD i 0 = m.getD i 0 := by
  unfold growMem
  split
  · rw [List.getD_eq_getElem?_getD, List.getD_eq_getElem?_getD,
      List.getElem?_append_left h]
  · rfl

theorem growMem_getD_new (m : List Nat) (need i : Nat) (h1 : m.length ≤ i)
    (h2 : i < (growMem m need).length) :
    (growMem m need).getD i 0 = 0 := by
  unfold growMem at h2 ⊢
  split at h2
  case isTrue hlt =>
    rw [if_pos hlt, List.getD_eq_getElem?_getD, List.getElem?_append_right h1]
    simp only [List.length_append, List.length_replicate] at h2
    rw [List.getElem?_replicate, if_pos (by omega)]
    rfl
  case isFalse hge =>
    rw [if_neg hge, List.getD_eq_getElem?_getD, List.getElem?_eq_none (by omega)]
    rfl

theorem storeWordBE_length (m : List Nat) (off : Nat) (v : List Nat) :
    (storeWordBE m off v).length = m.length := by
  unfold storeWordBE
  generalize List.range 32 = js
  induction js generalizing m with
  | nil => rfl
  | cons j js ih => rw [List.foldl_cons, ih, List.length_set]

theorem setFold_length (w : Nat → Nat) (off : Nat) : ∀ (js : List Nat) (m : List Nat),
    (js.foldl (fun acc k => acc.set (off + k) (w k)) m).length = m.length := by
  intro js
  induction js with
  | nil => intro m; rfl
  | cons j js ih => intro m; rw [List.foldl_cons, ih, List.length_set]

theorem setFold_untouched (w : Nat → Nat) (off p : Nat) :
    ∀ (js : List Nat) (m : List Nat), (∀ k ∈ js, off + k ≠ p) →
    (js.foldl (fun acc k => acc.set (off + k) (w k)) m).getD p 0 = m.getD p 0 := by
  intro js
  induction js with
  | nil => intro m _; rfl
  | cons j js ih =>
    intro m hk
    rw [List.foldl_cons, ih _ (fun k hmem => hk k (by simp [hmem]))]
    rw [List.getD_eq_getElem?_getD, List.getD_eq_getElem?_getD,
      List.getElem?_set_ne (hk j (by simp))]

theorem setFold_hit (w : Nat → Nat) (off i : Nat) :
    ∀ (js : List Nat) (m : List Nat), js.Nodup → i ∈ js → off + i < m.length →
    (js.foldl (fun acc k => acc.set (off + k) (w k)) m).getD (off + i) 0 = w i := by
  intro js
  induction js with
  | nil => intro m _ hmem; simp at hmem
  | cons j js ih =>
    intro m hnd hmem hlen
    rw [List.foldl_cons]
    rcases List.mem_cons.mp hmem with heq | hmem'
    · subst heq
      have hnotin : i ∉ js := (List.nodup_cons.mp hnd).1
      rw [setFold_untouched w off (off + i) js _
        (fun k hk hc => hnotin (by
          have : k = i := by omega
          rwa [this] at hk))]
      rw [List.getD_eq_getElem?_getD, List.getElem?_set_self (by omega)]
      rfl
    · rw [ih _ (List.nodup_cons.mp hnd).2 hmem' (by rw [List.length_set]; omega)]

theorem storeWordBE_getD_out (m : List Nat) (off : Nat) (v : List Nat) (p : Nat)
    (hp : p < off ∨ off + 32 ≤ p) :
    (storeWordBE m off v).getD p 0 = m.getD p 0 := by
  unfold storeWordBE
  exact setFold_untouched (fun i => v.getD (31 - i) 0) off p (List.range 32) m
    (fun k hk => by simp only [List.mem_range] at hk; omega)

theorem storeWordBE_getD_in (m : List Nat) (off : Nat) (v : List Nat) (i : Nat)
    (hi : i < 32) (hlen : off + 32 ≤ m.length) :
    (storeWordBE m off v).getD (off + i) 0 = v.getD (31 - i) 0 := by
  unfold storeWordBE
  exact setFold_hit (fun i => v.getD (31 - i) 0) off i (List.range 32) m
    (List.nodup_range 32) (List.mem_range.mpr hi) (by omega)

/-! ### One-step equations for each opcode branch of `interpret` -/

theorem step_eq_end_nil (code : List Nat) (pc : Nat) (stack : List (List Nat))
    (mem : List Nat) (rd : List Nat) (hend : code.length ≤ pc) :
    step ⟨[⟨code, pc, stack, mem⟩], rd⟩ = .done .Halted rd := by
  simp only [step]
  rw [if_pos hend]

theorem step_eq_end_cons (code : List Nat) (pc : Nat) (stack : List (List Nat))
    (mem : List Nat) (g : EVMFrame) (gs : List EVMFrame) (rd : List Nat)
    (hend : code.length ≤ pc) :
    step ⟨⟨code, pc, stack, mem⟩ :: g :: gs, rd⟩ = .next ⟨g :: gs, rd⟩ := by
  simp only [step]
  rw [if_pos hend]

theorem step_eq_stop_nil (code : List Nat) (pc : Nat) (stack : List (List Nat))
    (mem : List Nat) (rd : List Nat) (hpc : pc < code.length)
    (hop : code.getD pc 0 = 0x00) :
    step ⟨[⟨code, pc, stack, mem⟩], rd⟩ = .done .Halted rd := by
  simp only [step, hop]
  rw [if_neg (show ¬ (code.length ≤ pc) by omega)]
  norm_num

theorem step_eq_stop_cons (code : List Nat) (pc : Nat) (stack : List (List Nat))
    (mem : List Nat) (g : EVMFrame) (gs : List EVMFrame) (rd : List Nat)
    (hpc : pc < code.length) (hop : code.getD pc 0 = 0x00) :
    step ⟨⟨code, pc, stack, mem⟩ :: g :: gs, rd⟩ = .next ⟨g :: gs, rd⟩ := by
  simp only [step, hop]
  rw [if_neg (show ¬ (code.length ≤ pc) by omega)]
  norm_num

theorem step_eq_add (code : List Nat) (pc : Nat) (a b : List Nat)
    (st : List (List Nat)) (mem : List Nat) (rest : List EVMFrame) (rd : List Nat)
    (hpc : pc < code.length) (hop : code.getD pc 0 = 0x01) :
    step ⟨⟨code, pc, b :: a :: st, mem⟩ :: rest, rd⟩
      = .next ⟨⟨code, pc + 1, addUInt256 a b :: st, mem⟩ :: rest, rd⟩ := by
  simp only [step, hop]
  rw [if_neg (show ¬ (code.length ≤ pc) by omega)]
  norm_num

theorem step_eq_add_fault (code : List Nat) (pc : Nat) (stack : List (List Nat))
    (mem : List Nat) (rest : List EVMFrame) (rd : List Nat)
    (hpc : pc < code.length) (hop : code.getD pc 0 = 0x01)
    (hshort : stack.length < 2) :
    step ⟨⟨code, pc, stack, mem⟩ :: rest, rd⟩
      = .fault .UnexpectedNumArgs ⟨⟨code, pc + 1, stack, mem⟩ :: rest, rd⟩ := by
  rcases stack with _ | ⟨x, _ | ⟨y, st⟩⟩
  · simp only [step, hop]
    rw [if_neg (show ¬ (code.length ≤ pc) by omega)]
    norm_num
  · simp only [step, hop]
    rw [if_neg (show ¬ (code.length ≤ pc) by omega)]
    norm_num
  · simp only [List.length_cons] at hshort
    omega

theorem step_eq_sub (code : List Nat) (pc : Nat) (a b : List Nat)
    (st : List (List Nat)) (mem : List Nat) (rest : List EVMFrame) (rd : List Nat)
    (hpc : pc < code.length) (hop : code.getD pc 0 = 0x03) :
    step ⟨⟨code, pc, b :: a :: st, mem⟩ :: rest, rd⟩
      = .next ⟨⟨code, pc + 1, subUInt256 a b :: st, mem⟩ :: rest, rd⟩ := by
  simp only [step, hop]
  rw [if_neg (show ¬ (code.length ≤ pc) by omega)]
  norm_num

theorem step_eq_sub_fault (code : List Nat) (pc : Nat) (stack : List (List Nat))
    (mem : List Nat) (rest : List EVMFrame) (rd : List Nat)
    (hpc : pc < code.length) (hop : code.getD pc 0 = 0x03)
    (hshort : stack.length < 2) :
    step ⟨⟨code, pc, stack, mem⟩ :: rest, rd⟩
      = .fault .UnexpectedNumArgs ⟨⟨code, pc + 1, stack, mem⟩ :: rest, rd⟩ := by
  rcases stack with _ | ⟨x, _ | ⟨y, st⟩⟩
  · simp only [step, hop]
    rw [if_neg (show ¬ (code.length ≤ pc) by omega)]
    norm_num
  · simp only [step, hop]
    rw [if_neg (show ¬ (code.length ≤ pc) by omega)]
    norm_num
  · simp only [List.length_cons] at hshort
    omega

theorem step_eq_mul (code : List Nat) (pc : Nat) (a b : List Nat)
    (st : List (List Nat)) (mem : List Nat) (rest : List EVMFrame) (rd : List Nat)
    (hpc : pc < code.length) (hop : code.getD pc 0 = 0x02) :
    step ⟨⟨code, pc, b :: a :: st, mem⟩ :: rest, rd⟩
      = .next ⟨⟨code, pc + 1, mulUInt256 a b :: st, mem⟩ :: rest, rd⟩ := by
  simp only [step, hop]
  rw [if_neg (show ¬ (code.length ≤ pc) by omega)]
  norm_num

theorem step_eq_mul_fault (code : List Nat) (pc : Nat) (stack : List (List Nat))
    (mem : List Nat) (rest : List EVMFrame) (rd : List Nat)
    (hpc : pc < code.length) (hop : code.getD pc 0 = 0x02)
    (hshort : stack.length < 2) :
    step ⟨⟨code, pc, stack, mem⟩ :: rest, rd⟩
      = .fault .UnexpectedNumArgs ⟨⟨code, pc + 1, stack, mem⟩ :: rest, rd⟩ := by
  rcases stack with _ | ⟨x, _ | ⟨y, st⟩⟩
  · simp only [step, hop]
    rw [if_neg (show ¬ (code.length ≤ pc) by omega)]
    norm_num
  · simp only [step, hop]
    rw [if_neg (show ¬ (code.length ≤ pc) by omega)]
    norm_num
  · simp only [List.length_cons] at hshort
    omega

theorem step_eq_pop (code : List Nat) (pc : Nat) (x : List Nat)
    (st : List (List Nat)) (mem : List Nat) (rest : List EVMFrame) (rd : List Nat)
    (hpc : pc < code.length) (hop : code.getD pc 0 = 0x50) :
    step ⟨⟨code, pc, x :: st, mem⟩ :: rest, rd⟩
      = .next ⟨⟨code, pc + 1, st, mem⟩ :: rest, rd⟩ := by
  simp only [step, hop]
  rw [if_neg (show ¬ (code.length ≤ pc) by omega)]
  norm_num

theorem step_eq_pop_fault (code : List Nat) (pc : Nat)
    (mem : List Nat) (rest : List EVMFrame) (rd : List Nat)
    (hpc : pc < code.length) (hop : code.getD pc 0 = 0x50) :
    step ⟨⟨code, pc, [], mem⟩ :: rest, rd⟩
      = .fault .UnexpectedNumArgs ⟨⟨code, pc + 1, [], mem⟩ :: rest, rd⟩ := by
  simp only [step, hop]
  rw [if_neg (show ¬ (code.length ≤ pc) by omega)]
  norm_num

theorem step_eq_mstore (code : List Nat) (pc : Nat) (offv value : List Nat)
    (st : List (List Nat)) (mem : List Nat) (rest : List EVMFrame) (rd : List Nat)
    (hpc : pc < code.length) (hop : code.getD pc 0 = 0x52) :
    step ⟨⟨code, pc, offv :: value :: st, mem⟩ :: rest, rd⟩
      = .next ⟨⟨code, pc + 1, st,
          storeWordBE (growMem mem ((low64 offv + 32) % 2 ^ 64)) (low64 offv) value⟩
          :: rest, rd⟩ := by
  simp only [step, hop]
  rw [if_neg (show ¬ (code.length ≤ pc) by omega)]
  norm_num

theorem step_eq_mstore_fault (code : List Nat) (pc : Nat) (stack : List (List Nat))
    (mem : List Nat) (rest : List EVMFrame) (rd : List Nat)
    (hpc : pc < code.length) (hop : code.getD pc 0 = 0x52)
    (hshort : stack.length < 2) :
    step ⟨⟨code, pc, stack, mem⟩ :: rest, rd⟩
      = .fault .UnexpectedNumArgs ⟨⟨code, pc + 1, stack, mem⟩ :: rest, rd⟩ := by
  rcases stack with _ | ⟨x, _ | ⟨y, st⟩⟩
  · simp only [step, hop]
    rw [if_neg (show ¬ (code.length ≤ pc) by omega)]
    norm_num
  · simp only [step, hop]
    rw [if_neg (show ¬ (code.length ≤ pc) by omega)]
    norm_num
  · simp only [List.length_cons] at hshort
    omega

theorem step_eq_return_nil (code : List Nat) (pc : Nat) (offv sizev : List Nat)
    (st : List (List Nat)) (mem : List Nat) (rd : List Nat)
    (hpc : pc < code.length) (hop : code.getD pc 0 = 0xF3) :
    step ⟨[⟨code, pc, offv :: sizev :: st, mem⟩], rd⟩
      = .done .Returned
          (((growMem mem ((low64 offv + low64 sizev) % 2 ^ 64)).drop (low64 offv)).take
            (low64 sizev)) := by
  simp only [step, hop]
  rw [if_neg (show ¬ (code.length ≤ pc) by omega)]
  norm_num

theorem step_eq_return_cons (code : List Nat) (pc : Nat) (offv sizev : List Nat)
    (st : List (List Nat)) (mem : List Nat) (g : EVMFrame) (gs : List EVMFrame)
    (rd : List Nat) (hpc : pc < code.length) (hop : code.getD pc 0 = 0xF3) :
    step ⟨⟨code, pc, offv :: sizev :: st, mem⟩ :: g :: gs, rd⟩
      = .next ⟨g :: gs,
          ((growMem mem ((low64 offv + low64 sizev) % 2 ^ 64)).drop (low64 offv)).take
            (low64 sizev)⟩ := by
  simp only [step, hop]
  rw [if_neg (show ¬ (code.length ≤ pc) by omega)]
  norm_num

theorem step_eq_return_fault (code : List Nat) (pc : Nat) (stack : List (List Nat))
    (mem : List Nat) (rest : List EVMFrame) (rd : List Nat)
    (hpc : pc < code.length) (hop : code.getD pc 0 = 0xF3)
    (hshort : stack.length < 2) :
    step ⟨⟨code, pc, stack, mem⟩ :: rest, rd⟩
      = .fault .UnexpectedNumArgs ⟨⟨code, pc + 1, stack, mem⟩ :: rest, rd⟩ := by
  rcases stack with _ | ⟨x, _ | ⟨y, st⟩⟩
  · simp only [step, hop]
    rw [if_neg (show ¬ (code.length ≤ pc) by omega)]
    norm_num
  · simp only [step, hop]
    rw [if_neg (show ¬ (code.length ≤ pc) by omega)]
    norm_num
  · simp only [List.length_cons] at hshort
    omega

theorem step_eq_push_fault (code : List Nat) (pc : Nat) (stack : List (List Nat))
    (mem : List Nat) (rest : List EVMFrame) (rd : List Nat) (b : Nat)
    (hpc : pc < code.length) (hop : code.getD pc 0 = b)
    (hlo : 0x60 ≤ b) (hhi : b ≤ 0x7F)
    (hshort : code.length < pc + 1 + (b - 0x5F)) :
    step ⟨⟨code, pc, stack, mem⟩ :: rest, rd⟩
      = .fault .UnexpectedEnd ⟨⟨code, pc + 1, stack, mem⟩ :: rest, rd⟩ := by
  simp only [step, hop]
  rw [if_neg (show ¬ (code.length ≤ pc) by omega),
    if_neg (show ¬ (b = 0x00) by omega),
    if_neg (show ¬ (b = 0x01) by omega),
    if_neg (show ¬ (b = 0x03) by omega),
    if_neg (show ¬ (b = 0x02) by omega),
    if_neg (show ¬ (b = 0x50) by omega),
    if_neg (show ¬ (b = 0x52) by omega),
    if_neg (show ¬ (b = 0xF3) by omega),
    if_pos (show 0x60 ≤ b ∧ b ≤ 0x7F from ⟨hlo, hhi⟩),
    if_pos hshort]

theorem step_eq_push (code : List Nat) (pc : Nat) (stack : List (List Nat))
    (mem : List Nat) (rest : List EVMFrame) (rd : List Nat) (b : Nat)
    (hpc : pc < code.length) (hop : code.getD pc 0 = b)
    (hlo : 0x60 ≤ b) (hhi : b ≤ 0x7F)
    (hfit : pc + 1 + (b - 0x5F) ≤ code.length) :
    step ⟨⟨code, pc, stack, mem⟩ :: rest, rd⟩
      = .next ⟨⟨code, pc + 1 + (b - 0x5F), pushWord code (pc + 1) (b - 0x5F) :: stack, mem⟩
          :: rest, rd⟩ := by
  simp only [step, hop]
  rw [if_neg (show ¬ (code.length ≤ pc) by omega),
    if_neg (show ¬ (b = 0x00) by omega),
    if_neg (show ¬ (b = 0x01) by omega),
    if_neg (show ¬ (b = 0x03) by omega),
    if_neg (show ¬ (b = 0x02) by omega),
    if_neg (show ¬ (b = 0x50) by omega),
    if_neg (show ¬ (b = 0x52) by omega),
    if_neg (show ¬ (b = 0xF3) by omega),
    if_pos (show 0x60 ≤ b ∧ b ≤ 0x7F from ⟨hlo, hhi⟩),
    if_neg (show ¬ (code.length < pc + 1 + (b - 0x5F)) by omega)]

theorem step_eq_dup (code : List Nat) (pc : Nat) (stack : List (List Nat))
    (mem : List Nat) (rest : List EVMFrame) (rd : List Nat) (b : Nat)
    (hpc : pc < code.length) (hop : code.getD pc 0 = b)
    (hlo : 0x80 ≤ b) (hhi : b ≤ 0x8F)
    (hfit : b - 0x7F ≤ stack.length) :
    step ⟨⟨code, pc, stack, mem⟩ :: rest, rd⟩
      = .next ⟨⟨code, pc + 1, stack.getD (b - 0x7F - 1) zeroWord :: stack, mem⟩
          :: rest, rd⟩ := by
  simp only [step, hop]
  rw [if_neg (show ¬ (code.length ≤ pc) by omega),
    if_neg (show ¬ (b = 0x00) by omega),
    if_neg (show ¬ (b = 0x01) by omega),
    if_neg (show ¬ (b = 0x03) by omega),
    if_neg (show ¬ (b = 0x02) by omega),
    if_neg (show ¬ (b = 0x50) by omega),
    if_neg (show ¬ (b = 0x52) by omega),
    if_neg (show ¬ (b = 0xF3) by omega),
    if_neg (show ¬ (0x60 ≤ b ∧ b ≤ 0x7F) by omega),
    if_pos (show 0x80 ≤ b ∧ b ≤ 0x8F from ⟨hlo, hhi⟩),
    if_neg (show ¬ (stack.length < b - 0x7F) by omega)]

theorem step_eq_dup_fault (code : List Nat) (pc : Nat) (stack : List (List Nat))
    (mem : List Nat) (rest : List EVMFrame) (rd : List Nat) (b : Nat)
    (hpc : pc < code.length) (hop : code.getD pc 0 = b)
    (hlo : 0x80 ≤ b) (hhi : b ≤ 0x8F)
    (hshort : stack.length < b - 0x7F) :
    step ⟨⟨code, pc, stack, mem⟩ :: rest, rd⟩
      = .fault .UnexpectedNumArgs ⟨⟨code, pc + 1, stack, mem⟩ :: rest, rd⟩ := by
  simp only [step, hop]
  rw [if_neg (show ¬ (code.length ≤ pc) by omega),
    if_neg (show ¬ (b = 0x00) by omega),
    if_neg (show ¬ (b = 0x01) by omega),
    if_neg (show ¬ (b = 0x03) by omega),
    if_neg (show ¬ (b = 0x02) by omega),
    if_neg (show ¬ (b = 0x50) by omega),
    if_neg (show ¬ (b = 0x52) by omega),
    if_neg (show ¬ (b = 0xF3) by omega),
    if_neg (show ¬ (0x60 ≤ b ∧ b ≤ 0x7F) by omega),
    if_pos (show 0x80 ≤ b ∧ b ≤ 0x8F from ⟨hlo, hhi⟩),
    if_pos hshort]

theorem step_eq_swap (code : List Nat) (pc : Nat) (stack : List (List Nat))
    (mem : List Nat) (rest : List EVMFrame) (rd : List Nat) (b : Nat)
    (hpc : pc < code.length) (hop : code.getD pc 0 = b)
    (hlo : 0x90 ≤ b) (hhi : b ≤ 0x9F)
    (hfit : b - 0x8F < stack.length) :
    step ⟨⟨code, pc, stack, mem⟩ :: rest, rd⟩
      = .next ⟨⟨code, pc + 1, swapStack stack (b - 0x8F), mem⟩ :: rest, rd⟩ := by
  simp only [step, hop]
  rw [if_neg (show ¬ (code.length ≤ pc) by omega),
    if_neg (show ¬ (b = 0x00) by omega),
    if_neg (show ¬ (b = 0x01) by omega),
    if_neg (show ¬ (b = 0x03) by omega),
    if_neg (show ¬ (b = 0x02) by omega),
    if_neg (show ¬ (b = 0x50) by omega),
    if_neg (show ¬ (b = 0x52) by omega),
    if_neg (show ¬ (b = 0xF3) by omega),
    if_neg (show ¬ (0x60 ≤ b ∧ b ≤ 0x7F) by omega),
    if_neg (show ¬ (0x80 ≤ b ∧ b ≤ 0x8F) by omega),
    if_pos (show 0x90 ≤ b ∧ b ≤ 0x9F from ⟨hlo, hhi⟩),
    if_neg (show ¬ (stack.length ≤ b - 0x8F) by omega)]

theorem step_eq_swap_fault (code : List Nat) (pc : Nat) (stack : List (List Nat))
    (mem : List Nat) (rest : List EVMFrame) (rd : List Nat) (b : Nat)
    (hpc : pc < code.length) (hop : code.getD pc 0 = b)
    (hlo : 0x90 ≤ b) (hhi : b ≤ 0x9F)
    (hshort : stack.length ≤ b - 0x8F) :
    step ⟨⟨code, pc, stack, mem⟩ :: rest, rd⟩
      = .fault .UnexpectedNumArgs ⟨⟨code, pc + 1, stack, mem⟩ :: rest, rd⟩ := by
  simp only [step, hop]
  rw [if_neg (show ¬ (code.length ≤ pc) by omega),
    if_neg (show ¬ (b = 0x00) by omega),
    if_neg (show ¬ (b = 0x01) by omega),
    if_neg (show ¬ (b = 0x03) by omega),
    if_neg (show ¬ (b = 0x02) by omega),
    if_neg (show ¬ (b = 0x50) by omega),
    if_neg (show ¬ (b = 0x52) by omega),
    if_neg (show ¬ (b = 0xF3) by omega),
    if_neg (show ¬ (0x60 ≤ b ∧ b ≤ 0x7F) by omega),
    if_neg (show ¬ (0x80 ≤ b ∧ b ≤ 0x8F) by omega),
    if_pos (show 0x90 ≤ b ∧ b ≤ 0x9F from ⟨hlo, hhi⟩),
    if_pos hshort]

theorem step_eq_unsupported (code : List Nat) (pc : Nat) (stack : List (List Nat))
    (mem : List Nat) (rest : List EVMFrame) (rd : List Nat) (b : Nat)
    (hpc : pc < code.length) (hop : code.getD pc 0 = b)
    (h0 : b ≠ 0x00) (h1 : b ≠ 0x01) (h2 : b ≠ 0x02) (h3 : b ≠ 0x03)
    (h4 : b ≠ 0x50) (h5 : b ≠ 0x52) (h6 : b ≠ 0xF3)
    (h7 : ¬ (0x60 ≤ b ∧ b ≤ 0x7F)) (h8 : ¬ (0x80 ≤ b ∧ b ≤ 0x8F))
    (h9 : ¬ (0x90 ≤ b ∧ b ≤ 0x9F)) :
    step ⟨⟨code, pc, stack, mem⟩ :: rest, rd⟩
      = .fault .UnsupportedOpcode ⟨⟨code, pc + 1, stack, mem⟩ :: rest, rd⟩ := by
  simp only [step, hop]
  rw [if_neg (show ¬ (code.length ≤ pc) by omega),
    if_neg h0, if_neg h1, if_neg h3, if_neg h2, if_neg h4, if_neg h5, if_neg h6,
    if_neg h7, if_neg h8, if_neg h9]

/-! ### PUSH immediates: `pushWord` and big-endian values -/

theorem val_replicate_zero (n : Nat) : val (List.replicate n 0) = 0 := by
  induction n with
  | zero => rfl
  | succ n ih => simp [List.replicate_succ, val, ih]

theorem beVal_foldl (bs : List Nat) : ∀ acc : Nat,
    bs.foldl (fun a x => a * 256 + x) acc = acc * 256 ^ bs.length + val bs.reverse := by
  induction bs with
  | nil => intro acc; simp [val]
  | cons x bs ih =>
    intro acc
    simp only [List.foldl_cons, ih, List.reverse_cons, val_append,
      List.length_reverse, List.length_cons, val]
    ring

theorem beVal_eq_val_reverse (bs : List Nat) : beVal bs = val bs.reverse := by
  unfold beVal
  rw [beVal_foldl]
  ring

theorem pushWord_length (code : List Nat) (pc n : Nat) :
    (pushWord code pc n).length = 32 := by
  simp [pushWord]

theorem pushWord_getD_lo (code : List Nat) (pc n : Nat) (i : Nat)
    (hi : i < n) (hn : n ≤ 32) :
    (pushWord code pc n).getD i 0 = code.getD (pc + (n - 1 - i)) 0 := by
  rw [List.getD_eq_getElem?_getD, pushWord, List.getElem?_map,
    List.getElem?_range (by omega : i < 32), Option.map_some', Option.getD_some,
    if_pos hi]

theorem pushWord_getD_hi (code : List Nat) (pc n : Nat) (i : Nat) (hi : n ≤ i) :
    (pushWord code pc n).getD i 0 = 0 := by
  rw [List.getD_eq_getElem?_getD, pushWord, List.getElem?_map]
  by_cases h32 : i < 32
  · rw [List.getElem?_range h32, Option.map_some', Option.getD_some, if_neg (by omega)]
  · rw [List.getElem?_eq_none (by simp only [List.length_range]; omega)]
    rfl

theorem pushWord_eq (code : List Nat) (pc n : Nat) (h32 : n ≤ 32)
    (hb : pc + n ≤ code.length) :
    pushWord code pc n
      = ((code.drop pc).take n).reverse ++ List.replicate (32 - n) 0 := by
  have himm : ((code.drop pc).take n).length = n := by
    rw [List.length_take, List.length_drop]
    omega
  apply List.ext_getElem
  · simp only [pushWord, List.length_map, List.length_range, List.length_append,
      List.length_reverse, himm, List.length_replicate]
    omega
  · intro i hi1 hi2
    have hi32 : i < 32 := by simpa [pushWord] using hi1
    rw [(List.getD_eq_getElem _ _ hi1).symm]
    by_cases hin : i < n
    · rw [pushWord_getD_lo code pc n i hin h32]
      have hiR : i < (((code.drop pc).take n).reverse : List Nat).length := by
        rw [List.length_reverse, himm]; exact hin
      rw [List.getElem_append_left hiR, List.getElem_reverse]
      have hidx : ((code.drop pc).take n).length - 1 - i < ((code.drop pc).take n).length := by
        rw [himm]; omega
      rw [List.getElem_take, List.getElem_drop]
      rw [List.getD_eq_getElem _ _ (by rw [List.length_take, List.length_drop] at hidx; omega)]
      congr 1
      rw [himm]
    · rw [pushWord_getD_hi code pc n i (by omega)]
      have hiR : (((code.drop pc).take n).reverse : List Nat).length ≤ i := by
        rw [List.length_reverse, himm]; omega
      rw [List.getElem_append_right hiR, List.getElem_replicate]

theorem pushWord_val (code : List Nat) (pc n : Nat) (h32 : n ≤ 32)
    (hb : pc + n ≤ code.length) :
    val (pushWord code pc n) = beVal ((code.drop pc).take n) := by
  rw [pushWord_eq code pc n h32 hb, val_append, val_replicate_zero,
    beVal_eq_val_reverse]
  ring

/-! ### Word-level corollaries -/

theorem pow256_32 : (256 : Nat) ^ 32 = 2 ^ 256 := by norm_num

theorem mulUInt256_val (A B : List Nat) (hA : WordWf A) (hB : WordWf B) :
    val (mulUInt256 A B) = (val A * val B) % 2 ^ 256 := by
  obtain ⟨hl, hb, hv, -⟩ := mulLoop_spec A B hA hB
  have hsplit : val (mulLoop A B).1
      = val ((mulLoop A B).1.take 32) + 256 ^ 32 * val ((mulLoop A B).1.drop 32) := by
    conv_lhs => rw [← List.take_append_drop 32 (mulLoop A B).1]
    rw [val_append, List.length_take, hl]
    norm_num
  have htl : ((mulLoop A B).1.take 32).length = 32 := by
    rw [List.length_take, hl]
    omega
  have htb : ∀ x ∈ (mulLoop A B).1.take 32, x < 256 :=
    fun x hx => hb x (List.mem_of_mem_take hx)
  have hlt : val ((mulLoop A B).1.take 32) < 256 ^ 32 := by
    have := val_lt htb
    rwa [htl] at this
  have : val (mulUInt256 A B) = val (mulLoop A B).1 % 256 ^ 32 := by
    rw [hsplit, Nat.mul_comm (256 ^ 32), Nat.add_mul_mod_self_right,
      Nat.mod_eq_of_lt hlt]
    rfl
  rw [this, hv, pow256_32]

theorem mulUInt256_wf (A B : List Nat) (hA : WordWf A) (hB : WordWf B) :
    WordWf (mulUInt256 A B) := by
  obtain ⟨hl, hb, -, -⟩ := mulLoop_spec A B hA hB
  constructor
  · rw [mulUInt256, List.length_take, hl]
    omega
  · intro x hx
    exact hb x (List.mem_of_mem_take hx)

theorem addUInt256_wf (A B : List Nat) (hA : WordWf A) (hB : WordWf B) :
    WordWf (addUInt256 A B) := by
  constructor
  · have : (addUInt256 A B).length = min A.length B.length := addBytes_length A B 0
    rw [this, hA.1, hB.1]
    omega
  · exact addBytes_bytes_lt A B 0

theorem addUInt256_val (A B : List Nat) (hA : WordWf A) (hB : WordWf B) :
    val (addUInt256 A B) = (val A + val B) % 2 ^ 256 := by
  have := addBytes_val A B 0 (by rw [hA.1, hB.1]) hA.2 hB.2 (by omega)
  rw [addUInt256, this, hA.1, pow256_32]
  norm_num

theorem sub_add_roundtrip (A B : List Nat) (hA : WordWf A) (hB : WordWf B) :
    subUInt256 (addUInt256 A B) B = A := by
  obtain ⟨hAl, hAb⟩ := hA
  obtain ⟨hBl, hBb⟩ := hB
  have haddl : (addUInt256 A B).length = 32 := by
    have : (addUInt256 A B).length = min A.length B.length := addBytes_length A B 0
    rw [this, hAl, hBl]
    omega
  have haddb : ∀ x ∈ addUInt256 A B, x < 256 := addBytes_bytes_lt A B 0
  have hsubl : (subUInt256 (addUInt256 A B) B).length = 32 := by
    have : (subUInt256 (addUInt256 A B) B).length
        = min (addUInt256 A B).length B.length := subBytes_length (addUInt256 A B) B 0
    rw [this, haddl, hBl]
    omega
  have hsubb : ∀ x ∈ subUInt256 (addUInt256 A B) B, x < 256 :=
    subBytes_bytes_lt (addUInt256 A B) B 0 haddb
  have hmod := subBytes_val_modEq (addUInt256 A B) B 0 (by rw [haddl, hBl]) hBb
    (by omega)
  rw [haddl] at hmod
  have haddv : val (addUInt256 A B) ≡ val A + val B [MOD 256 ^ 32] := by
    have := addBytes_val A B 0 (by rw [hAl, hBl]) hAb hBb (by omega)
    rw [addUInt256, this, hAl]
    exact Nat.mod_modEq _ _
  have h1 : val (subUInt256 (addUInt256 A B) B) + val B
      ≡ val A + val B [MOD 256 ^ 32] := by
    have h0 : val (subUInt256 (addUInt256 A B) B) + val B + 0
        ≡ val (addUInt256 A B) [MOD 256 ^ 32] := hmod
    simpa using h0.trans haddv
  have h2 : val (subUInt256 (addUInt256 A B) B) ≡ val A [MOD 256 ^ 32] :=
    Nat.ModEq.add_right_cancel' (val B) h1
  have h3 : val (subUInt256 (addUInt256 A B) B) = val A := by
    have hlt1 : val (subUInt256 (addUInt256 A B) B) < 256 ^ 32 := by
      have := val_lt hsubb
      rwa [hsubl] at this
    have hlt2 : val A < 256 ^ 32 := by
      have := val_lt hAb
      rwa [hAl] at this
    unfold Nat.ModEq at h2
    rwa [Nat.mod_eq_of_lt hlt1, Nat.mod_eq_of_lt hlt2] at h2
  exact val_inj (by rw [hsubl, hAl]) hsubb hAb h3

/-! ### `low64` facts -/

theorem low64_lt (w : List Nat) (hw : ∀ x ∈ w, x < 256) : low64 w < 2 ^ 64 := by
  unfold low64
  have h0 := getD_lt hw 0
  have h1 := getD_lt hw 1
  have h2 := getD_lt hw 2
  have h3 := getD_lt hw 3
  have h4 := getD_lt hw 4
  have h5 := getD_lt hw 5
  have h6 := getD_lt hw 6
  have h7 := getD_lt hw 7
  omega

theorem low64_low_bytes_only (v w : List Nat)
    (h : ∀ i, i < 8 → v.getD i 0 = w.getD i 0) : low64 v = low64 w := by
  unfold low64
  rw [h 0 (by omega), h 1 (by omega), h 2 (by omega), h 3 (by omega),
    h 4 (by omega), h 5 (by omega), h 6 (by omega), h 7 (by omega)]

/-! ### The 1025-PUSH1 program used to exhibit the missing stack-capacity
check -/

theorem pushProg_succ (n : Nat) : pushProg (n + 1) = 0x60 :: 0x00 :: pushProg n := by
  simp [pushProg, List.replicate_succ]

theorem pushProg_length (n : Nat) : (pushProg n).length = 2 * n := by
  induction n with
  | zero => rfl
  | succ n ih =>
    rw [pushProg_succ]
    simp only [List.length_cons, ih]
    omega

theorem pushProg_getD (n : Nat) : ∀ (i : Nat), i < 2 * n →
    (pushProg n).getD i 0 = if i % 2 = 0 then 0x60 else 0x00 := by
  induction n with
  | zero => intro i h; omega
  | succ n ih =>
    intro i h
    rw [pushProg_succ]
    match i with
    | 0 => rfl
    | 1 => rfl
    | (i + 2) =>
      rw [List.getD_cons_succ, List.getD_cons_succ, ih i (by omega)]
      have hmod : (i + 2) % 2 = i % 2 := by omega
      rw [hmod]

theorem pushWord_one_zero (code : List Nat) (pc : Nat) (h : code.getD pc 0 = 0) :
    pushWord code pc 1 = zeroWord := by
  apply List.ext_getElem
  · simp [pushWord, zeroWord]
  · intro i h1 h2
    rw [(List.getD_eq_getElem _ _ h1).symm, (List.getD_eq_getElem _ _ h2).symm]
    have hz : (zeroWord : List Nat).getD i 0 = 0 := by
      rw [List.getD_eq_getElem?_getD, zeroWord, List.getElem?_replicate]
      split <;> rfl
    rw [hz]
    by_cases h0 : i = 0
    · subst h0
      rw [pushWord_getD_lo code pc 1 0 (by omega) (by omega)]
      simpa using h
    · exact pushWord_getD_hi code pc 1 i (by omega)

theorem pushRunAux : ∀ (k j n : Nat), j + k ≤ n →
    stepN k ⟨[⟨pushProg n, 2 * j, List.replicate j zeroWord, []⟩], []⟩
      = ⟨[⟨pushProg n, 2 * (j + k), List.replicate (j + k) zeroWord, []⟩], []⟩ := by
  intro k
  induction k with
  | zero => intro j n h; rfl
  | succ k ih =>
    intro j n h
    have hlen := pushProg_length n
    have hop : (pushProg n).getD (2 * j) 0 = 0x60 := by
      rw [pushProg_getD n (2 * j) (by omega)]
      simp
    have hodd : (pushProg n).getD (2 * j + 1) 0 = 0 := by
      rw [pushProg_getD n (2 * j + 1) (by omega)]
      have hmod : (2 * j + 1) % 2 = 1 := by omega
      rw [hmod]
      norm_num
    have hstep : step ⟨[⟨pushProg n, 2 * j, List.replicate j zeroWord, []⟩], []⟩
        = .next ⟨[⟨pushProg n, 2 * (j + 1), List.replicate (j + 1) zeroWord, []⟩], []⟩ := by
      have h2 := step_eq_push (pushProg n) (2 * j) (List.replicate j zeroWord) [] [] []
        0x60 (by omega) hop (by omega) (by omega) (by omega)
      rw [h2]
      have hone : (0x60 : Nat) - 0x5F = 1 := by norm_num
      rw [hone, pushWord_one_zero _ _ hodd]
      have hpc : 2 * j + 1 + 1 = 2 * (j + 1) := by omega
      rw [hpc, List.replicate_succ]
    show (match step ⟨[⟨pushProg n, 2 * j, List.replicate j zeroWord, []⟩], []⟩ with
      | .next s' => stepN k s'
      | _ => ⟨[⟨pushProg n, 2 * j, List.replicate j zeroWord, []⟩], []⟩)
      = ⟨[⟨pushProg n, 2 * (j + (k + 1)), List.replicate (j + (k + 1)) zeroWord, []⟩], []⟩
    rw [hstep]
    have hih := ih (j + 1) n (by omega)
    have h1 : j + 1 + k = j + (k + 1) := by omega
    rw [h1] at hih
    exact hih

/-- Memory of the current frame never shrinks across a continuing step, and
frames below the current one are untouched. Case analysis over every branch
of the interpreter loop. -/
theorem step_memory_mono (f : EVMFrame) (rest : List EVMFrame) (rd : List Nat)
    (s' : MachState) (h : step ⟨f :: rest, rd⟩ = .next s') :
    s'.frames = rest ∨
    ∃ f', s'.frames = f' :: rest ∧ f.memory.length ≤ f'.memory.length := by
  rcases f with ⟨code, pc, stack, mem⟩
  by_cases hend : code.length ≤ pc
  · rcases rest with _ | ⟨g, gs⟩
    · rw [step_eq_end_nil code pc stack mem rd hend] at h
      cases h
    · rw [step_eq_end_cons code pc stack mem g gs rd hend] at h
      injection h with h2
      subst h2
      exact Or.inl rfl
  · push_neg at hend
    by_cases h0 : code.getD pc 0 = 0x00
    · rcases rest with _ | ⟨g, gs⟩
      · rw [step_eq_stop_nil code pc stack mem rd hend h0] at h
        cases h
      · rw [step_eq_stop_cons code pc stack mem g gs rd hend h0] at h
        injection h with h2
        subst h2
        exact Or.inl rfl
    · by_cases h1 : code.getD pc 0 = 0x01
      · rcases stack with _ | ⟨x, _ | ⟨y, st⟩⟩
        · rw [step_eq_add_fault code pc [] mem rest rd hend h1 (by simp)] at h
          cases h
        · rw [step_eq_add_fault code pc [x] mem rest rd hend h1 (by simp)] at h
          cases h
        · rw [step_eq_add code pc y x st mem rest rd hend h1] at h
          injection h with h2
          subst h2
          exact Or.inr ⟨_, rfl, Nat.le_refl _⟩
      · by_cases h2 : code.getD pc 0 = 0x02
        · rcases stack with _ | ⟨x, _ | ⟨y, st⟩⟩
          · rw [step_eq_mul_fault code pc [] mem rest rd hend h2 (by simp)] at h
            cases h
          · rw [step_eq_mul_fault code pc [x] mem rest rd hend h2 (by simp)] at h
            cases h
          · rw [step_eq_mul code pc y x st mem rest rd hend h2] at h
            injection h with heq
            subst heq
            exact Or.inr ⟨_, rfl, Nat.le_refl _⟩
        · by_cases h3 : code.getD pc 0 = 0x03
          · rcases stack with _ | ⟨x, _ | ⟨y, st⟩⟩
            · rw [step_eq_sub_fault code pc [] mem rest rd hend h3 (by simp)] at h
              cases h
            · rw [step_eq_sub_fault code pc [x] mem rest rd hend h3 (by simp)] at h
              cases h
            · rw [step_eq_sub code pc y x st mem rest rd hend h3] at h
              injection h with heq
              subst heq
              exact Or.inr ⟨_, rfl, Nat.le_refl _⟩
          · by_cases h4 : code.getD pc 0 = 0x50
            · rcases stack with _ | ⟨x, st⟩
              · rw [step_eq_pop_fault code pc mem rest rd hend h4] at h
                cases h
              · rw [step_eq_pop code pc x st mem rest rd hend h4] at h
                injection h with heq
                subst heq
                exact Or.inr ⟨_, rfl, Nat.le_refl _⟩
            · by_cases h5 : code.getD pc 0 = 0x52
              · rcases stack with _ | ⟨x, _ | ⟨y, st⟩⟩
                · rw [step_eq_mstore_fault code pc [] mem rest rd hend h5 (by simp)] at h
                  cases h
                · rw [step_eq_mstore_fault code pc [x] mem rest rd hend h5 (by simp)] at h
                  cases h
                · rw [step_eq_mstore code pc x y st mem rest rd hend h5] at h
                  injection h with heq
                  subst heq
                  refine Or.inr ⟨_, rfl, ?_⟩
                  rw [storeWordBE_length]
                  exact growMem_len_ge _ _
              · by_cases h6 : code.getD pc 0 = 0xF3
                · rcases stack with _ | ⟨x, _ | ⟨y, st⟩⟩
                  · rw [step_eq_return_fault code pc [] mem rest rd hend h6 (by simp)] at h
                    cases h
                  · rw [step_eq_return_fault code pc [x] mem rest rd hend h6 (by simp)] at h
                    cases h
                  · rcases rest with _ | ⟨g, gs⟩
                    · rw [step_eq_return_nil code pc x y st mem rd hend h6] at h
                      cases h
                    · rw [step_eq_return_cons code pc x y st mem g gs rd hend h6] at h
                      injection h with heq
                      subst heq
                      exact Or.inl rfl
                · by_cases h7 : 0x60 ≤ code.getD pc 0 ∧ code.getD pc 0 ≤ 0x7F
                  · by_cases h7f : code.length < pc + 1 + (code.getD pc 0 - 0x5F)
                    · rw [step_eq_push_fault code pc stack mem rest rd _ hend rfl
                        h7.1 h7.2 h7f] at h
                      cases h
                    · rw [step_eq_push code pc stack mem rest rd _ hend rfl
                        h7.1 h7.2 (by omega)] at h
                      injection h with heq
                      subst heq
                      exact Or.inr ⟨_, rfl, Nat.le_refl _⟩
                  · by_cases h8 : 0x80 ≤ code.getD pc 0 ∧ code.getD pc 0 ≤ 0x8F
                    · by_cases h8f : stack.length < code.getD pc 0 - 0x7F
                      · rw [step_eq_dup_fault code pc stack mem rest rd _ hend rfl
                          h8.1 h8.2 h8f] at h
                        cases h
                      · rw [step_eq_dup code pc stack mem rest rd _ hend rfl
                          h8.1 h8.2 (by omega)] at h
                        injection h with heq
                        subst heq
                        exact Or.inr ⟨_, rfl, Nat.le_refl _⟩
                    · by_cases h9 : 0x90 ≤ code.getD pc 0 ∧ code.getD pc 0 ≤ 0x9F
                      · by_cases h9f : stack.length ≤ code.getD pc 0 - 0x8F
                        · rw [step_eq_swap_fault code pc stack mem rest rd _ hend rfl
                            h9.1 h9.2 h9f] at h
                          cases h
                        · rw [step_eq_swap code pc stack mem rest rd _ hend rfl
                            h9.1 h9.2 (by omega)] at h
                          injection h with heq
                          subst heq
                          exact Or.inr ⟨_, rfl, Nat.le_refl _⟩
                      · rw [step_eq_unsupported code pc stack mem rest rd _ hend rfl
                          h0 h1 h2 h3 h4 h5 h6 h7 h8 h9] at h
                        cases h

/-- Each handler's height guard, expressed through `reqHeight`: when the
stack is shorter than the requirement, the step faults `UnexpectedNumArgs`
with pc advanced past the opcode byte and everything else untouched. -/
theorem step_underflow_fault (code : List Nat) (pc : Nat) (stack : List (List Nat))
    (mem : List Nat) (rest : List EVMFrame) (rd : List Nat) (N : Nat)
    (hpc : pc < code.length) (hreq : reqHeight (code.getD pc 0) = some N)
    (hlt : stack.length < N) :
    step ⟨⟨code, pc, stack, mem⟩ :: rest, rd⟩
      = .fault .UnexpectedNumArgs ⟨⟨code, pc + 1, stack, mem⟩ :: rest, rd⟩ := by
  unfold reqHeight at hreq
  by_cases hA : code.getD pc 0 = 0x01 ∨ code.getD pc 0 = 0x02 ∨ code.getD pc 0 = 0x03
  · rw [if_pos hA] at hreq
    injection hreq with hN
    subst hN
    rcases hA with hop | hop | hop
    · exact step_eq_add_fault code pc stack mem rest rd hpc hop hlt
    · exact step_eq_mul_fault code pc stack mem rest rd hpc hop hlt
    · exact step_eq_sub_fault code pc stack mem rest rd hpc hop hlt
  · rw [if_neg hA] at hreq
    by_cases hP : code.getD pc 0 = 0x50
    · rw [if_pos hP] at hreq
      injection hreq with hN
      subst hN
      rcases stack with _ | ⟨x, st⟩
      · exact step_eq_pop_fault code pc mem rest rd hpc hP
      · simp only [List.length_cons] at hlt
        omega
    · rw [if_neg hP] at hreq
      by_cases hM : code.getD pc 0 = 0x52 ∨ code.getD pc 0 = 0xF3
      · rw [if_pos hM] at hreq
        injection hreq with hN
        subst hN
        rcases hM with hop | hop
        · exact step_eq_mstore_fault code pc stack mem rest rd hpc hop hlt
        · exact step_eq_return_fault code pc stack mem rest rd hpc hop hlt
      · rw [if_neg hM] at hreq
        by_cases hD : 0x80 ≤ code.getD pc 0 ∧ code.getD pc 0 ≤ 0x8F
        · rw [if_pos hD] at hreq
          injection hreq with hN
          subst hN
          exact step_eq_dup_fault code pc stack mem rest rd _ hpc rfl hD.1 hD.2 hlt
        · rw [if_neg hD] at hreq
          by_cases hS : 0x90 ≤ code.getD pc 0 ∧ code.getD pc 0 ≤ 0x9F
          · rw [if_pos hS] at hreq
            injection hreq with hN
            subst hN
            exact step_eq_swap_fault code pc stack mem rest rd _ hpc rfl hS.1 hS.2
              (by omega)
          · rw [if_neg hS] at hreq
            cases hreq

/-! ### Claim theorems -/

/-- C1: with stack height ≥ 2 (stack is `B :: A :: st`, so B is popped first
and A second), MUL pushes the word whose value is `A*B mod 2^256` — the low
256 bits (bytes 0..31) of the full 512-bit schoolbook product held in
`Temp[64]`; and in particular `mul(2^128, 2^128) = 0` (the word with byte 16
set to 1 squared gives the all-zero word). -/
theorem claim_C1_mul (code : List Nat) (pc : Nat) (a b : List Nat)
    (st : List (List Nat)) (mem : List Nat) (rest : List EVMFrame) (rd : List Nat)
    (hpc : pc < code.length) (hop : code.getD pc 0 = 0x02)
    (ha : WordWf a) (hb : WordWf b) :
    step ⟨⟨code, pc, b :: a :: st, mem⟩ :: rest, rd⟩
      = .next ⟨⟨code, pc + 1, mulUInt256 a b :: st, mem⟩ :: rest, rd⟩ ∧
    val (mulUInt256 a b) = (val a * val b) % 2 ^ 256 ∧
    mulUInt256 (List.replicate 16 0 ++ 1 :: List.replicate 15 0)
        (List.replicate 16 0 ++ 1 :: List.replicate 15 0) = zeroWord := by
  refine ⟨step_eq_mul code pc a b st mem rest rd hpc hop,
    mulUInt256_val a b ha hb, ?_⟩
  have hwf : WordWf (List.replicate 16 0 ++ 1 :: List.replicate 15 0) := by decide
  have hv : val (List.replicate 16 0 ++ 1 :: List.replicate 15 0) = 2 ^ 128 := by
    decide
  have h1 := mulUInt256_val _ _ hwf hwf
  rw [hv] at h1
  have h2 : (2 : Nat) ^ 128 * 2 ^ 128 % 2 ^ 256 = 0 := by
    rw [← pow_add]
    norm_num
  rw [h2] at h1
  have hwf2 := mulUInt256_wf _ _ hwf hwf
  have hz : WordWf zeroWord := by decide
  have hzv : val zeroWord = 0 := by decide
  exact val_inj (by rw [hwf2.1, hz.1]) hwf2.2 hz.2 (by rw [h1, hzv])

/-- C1 witness: the MUL step applied at a concrete state. -/
theorem claim_C1_mul_witness :
    step ⟨[⟨[0x02], 0, [3 :: List.replicate 31 0, 2 :: List.replicate 31 0], []⟩], []⟩
      = .next ⟨[⟨[0x02], 0 + 1,
          [mulUInt256 (2 :: List.replicate 31 0) (3 :: List.replicate 31 0)], []⟩], []⟩ :=
  (claim_C1_mul [0x02] 0 (2 :: List.replicate 31 0) (3 :: List.replicate 31 0) [] [] [] []
    (by decide) (by decide) (by decide) (by decide)).1

/-- C2: `addUInt256` computes `A+B mod 2^256` (byte-wise carry addition with
the final carry discarded; it is total, with no error condition) and is
commutative. -/
theorem claim_C2_add (A B : List Nat) (hA : WordWf A) (hB : WordWf B) :
    val (addUInt256 A B) = (val A + val B) % 2 ^ 256 ∧
    addUInt256 A B = addUInt256 B A :=
  ⟨addUInt256_val A B hA hB, addBytes_comm A B 0⟩

/-- C2 witness at concrete words 5 and 3. -/
theorem claim_C2_add_witness :
    val (addUInt256 (5 :: List.replicate 31 0) (3 :: List.replicate 31 0))
      = (val (5 :: List.replicate 31 0) + val (3 :: List.replicate 31 0)) % 2 ^ 256 ∧
    addUInt256 (5 :: List.replicate 31 0) (3 :: List.replicate 31 0)
      = addUInt256 (3 :: List.replicate 31 0) (5 :: List.replicate 31 0) :=
  claim_C2_add _ _ (by decide) (by decide)

/-- C3: for a PUSHn opcode byte `b` (0x60..0x7F, n = b - 0x5F): if fewer
than n bytes remain after the opcode the step faults `UnexpectedEnd`;
otherwise the n bytes are read as a big-endian immediate (`beVal`), stored
in little-endian word form — word byte `i` holds immediate byte `n-1-i`,
so the most significant source byte lands at word index `n-1`, the highest
index written, and all bytes above are zero — `Pc` advances past the
immediate, and the word is pushed. -/
theorem claim_C3_push (code : List Nat) (pc : Nat) (stack : List (List Nat))
    (mem : List Nat) (rest : List EVMFrame) (rd : List Nat) (b : Nat)
    (hpc : pc < code.length) (hop : code.getD pc 0 = b)
    (hlo : 0x60 ≤ b) (hhi : b ≤ 0x7F) :
    (code.length < pc + 1 + (b - 0x5F) →
      step ⟨⟨code, pc, stack, mem⟩ :: rest, rd⟩
        = .fault .UnexpectedEnd ⟨⟨code, pc + 1, stack, mem⟩ :: rest, rd⟩) ∧
    (pc + 1 + (b - 0x5F) ≤ code.length →
      step ⟨⟨code, pc, stack, mem⟩ :: rest, rd⟩
        = .next ⟨⟨code, pc + 1 + (b - 0x5F),
            pushWord code (pc + 1) (b - 0x5F) :: stack, mem⟩ :: rest, rd⟩ ∧
      val (pushWord code (pc + 1) (b - 0x5F))
        = beVal ((code.drop (pc + 1)).take (b - 0x5F)) ∧
      (∀ i, i < b - 0x5F → (pushWord code (pc + 1) (b - 0x5F)).getD i 0
          = code.getD (pc + 1 + (b - 0x5F - 1 - i)) 0) ∧
      (∀ i, b - 0x5F ≤ i → (pushWord code (pc + 1) (b - 0x5F)).getD i 0 = 0)) := by
  constructor
  · intro hshort
    exact step_eq_push_fault code pc stack mem rest rd b hpc hop hlo hhi hshort
  · intro hfit
    refine ⟨step_eq_push code pc stack mem rest rd b hpc hop hlo hhi hfit,
      pushWord_val code (pc + 1) (b - 0x5F) (by omega) (by omega), ?_, ?_⟩
    · intro i hi
      exact pushWord_getD_lo code (pc + 1) (b - 0x5F) i hi (by omega)
    · intro i hi
      exact pushWord_getD_hi code (pc + 1) (b - 0x5F) i hi

/-- C3 witness: PUSH32 with only 10 bytes remaining faults `UnexpectedEnd`. -/
theorem claim_C3_push_witness :
    step ⟨[⟨0x7F :: List.replicate 10 0, 0, [], []⟩], []⟩
      = .fault .UnexpectedEnd ⟨[⟨0x7F :: List.replicate 10 0, 0 + 1, [], []⟩], []⟩ :=
  (claim_C3_push (0x7F :: List.replicate 10 0) 0 [] [] [] [] 0x7F (by decide) (by decide)
    (by decide) (by decide)).1 (by decide)

/-- C4: the program `PUSH1 05, PUSH1 03, ADD, PUSH1 00, MSTORE, PUSH1 20,
PUSH1 00, RETURN` terminates in the `Returned` state with return data of
exactly 32 bytes: 31 zero bytes then 0x08 (big-endian value 8). -/
theorem claim_C4_program :
    run 20 (initState [0x60, 0x05, 0x60, 0x03, 0x01, 0x60, 0x00, 0x52,
        0x60, 0x20, 0x60, 0x00, 0xF3])
      = .returned (List.replicate 31 0 ++ [8]) ∧
    (List.replicate 31 0 ++ [8] : List Nat).length = 32 ∧
    beVal (List.replicate 31 0 ++ [8]) = 8 :=
  ⟨by decide, by decide, by decide⟩

/-- C5 counterexample: with offset word `2^64 - 1` (low 8 bytes all 0xFF)
the `size_t` sum `Off + 32` wraps to 31, so memory is grown only to 31
bytes — not to at least `offset + 32` as the claim states (the 32-byte
write then indexes far past the buffer, which in C++ is undefined
behaviour; the model's `List.set` leaves the list unchanged there). -/
theorem claim_C5_mstore_counterexample :
    low64 (List.replicate 8 255 ++ List.replicate 24 0) = 2 ^ 64 - 1 ∧
    step ⟨[⟨[0x52], 0, [List.replicate 8 255 ++ List.replicate 24 0, zeroWord], []⟩], []⟩
      = .next ⟨[⟨[0x52], 1, [], List.replicate 31 0⟩], []⟩ ∧
    (List.replicate 31 0 : List Nat).length
      < low64 (List.replicate 8 255 ++ List.replicate 24 0) + 32 :=
  ⟨by decide, by decide, by decide⟩

/-- C5 (amended): provided `offset + 32` does not overflow the 64-bit
`size_t` (offset ≤ 2^64 − 33), MSTORE with height ≥ 2 pops the offset
first and the value second, grows Memory to at least `offset+32` bytes
(never shrinking, newly exposed bytes zero), writes the value's 32 bytes
big-endian at `[offset, offset+32)` (value byte `31-i` at `offset+i`, so
LE byte 31 lands at `Memory[offset]`), honours only the low 8 bytes of
the offset word, and faults `UnexpectedNumArgs` when height < 2; when
`offset+32` overflows, the resize target wraps to `(offset+32) mod 2^64`
(see the counterexample). -/
theorem claim_C5_mstore_amended (code : List Nat) (pc : Nat) (offv value : List Nat)
    (st : List (List Nat)) (mem : List Nat) (rest : List EVMFrame) (rd : List Nat)
    (hpc : pc < code.length) (hop : code.getD pc 0 = 0x52)
    (hnw : low64 offv + 32 < 2 ^ 64) :
    (step ⟨⟨code, pc, offv :: value :: st, mem⟩ :: rest, rd⟩
      = .next ⟨⟨code, pc + 1, st,
          storeWordBE (growMem mem (low64 offv + 32)) (low64 offv) value⟩ :: rest, rd⟩) ∧
    mem.length ≤ (storeWordBE (growMem mem (low64 offv + 32)) (low64 offv) value).length ∧
    low64 offv + 32
      ≤ (storeWordBE (growMem mem (low64 offv + 32)) (low64 offv) value).length ∧
    (∀ i, i < 32 →
      (storeWordBE (growMem mem (low64 offv + 32)) (low64 offv) value).getD
          (low64 offv + i) 0
        = value.getD (31 - i) 0) ∧
    (∀ i, mem.length ≤ i → i < low64 offv →
      (storeWordBE (growMem mem (low64 offv + 32)) (low64 offv) value).getD i 0 = 0) ∧
    (∀ v w : List Nat, (∀ i, i < 8 → v.getD i 0 = w.getD i 0) → low64 v = low64 w) ∧
    (∀ stack : List (List Nat), stack.length < 2 →
      step ⟨⟨code, pc, stack, mem⟩ :: rest, rd⟩
        = .fault .UnexpectedNumArgs ⟨⟨code, pc + 1, stack, mem⟩ :: rest, rd⟩) := by
  have hmod : (low64 offv + 32) % 2 ^ 64 = low64 offv + 32 := Nat.mod_eq_of_lt hnw
  refine ⟨?_, ?_, ?_, ?_, ?_, low64_low_bytes_only, ?_⟩
  · rw [step_eq_mstore code pc offv value st mem rest rd hpc hop, hmod]
  · rw [storeWordBE_length]
    exact growMem_len_ge _ _
  · rw [storeWordBE_length]
    exact growMem_len_need _ _
  · intro i hi
    exact storeWordBE_getD_in _ _ _ i hi (growMem_len_need _ _)
  · intro i h1 h2
    rw [storeWordBE_getD_out _ _ _ i (Or.inl h2)]
    exact growMem_getD_new mem _ i h1 (by
      have := growMem_len_need mem (low64 offv + 32)
      omega)
  · intro stack hshort
    exact step_eq_mstore_fault code pc stack mem rest rd hpc hop hshort

/-- C5 witness: the amended MSTORE claim applied at a concrete state. -/
theorem claim_C5_mstore_amended_witness :
    step ⟨[⟨[0x52], 0, [zeroWord, zeroWord], []⟩], []⟩
      = .next ⟨[⟨[0x52], 0 + 1, [],
          storeWordBE (growMem [] (low64 zeroWord + 32)) (low64 zeroWord) zeroWord⟩], []⟩ :=
  (claim_C5_mstore_amended [0x52] 0 zeroWord zeroWord [] [] [] []
    (by decide) (by decide) (by decide)).1

/-- C6: `sub(add(A, B), B) = A` for all words — subtraction (byte-wise
borrow propagation, final borrow discarded) inverts wraparound addition. -/
theorem claim_C6_sub_add_inverse (A B : List Nat) (hA : WordWf A) (hB : WordWf B) :
    subUInt256 (addUInt256 A B) B = A :=
  sub_add_roundtrip A B hA hB

/-- C6 witness at concrete words. -/
theorem claim_C6_sub_add_inverse_witness :
    subUInt256 (addUInt256 (255 :: List.replicate 31 0) (7 :: List.replicate 31 0))
        (7 :: List.replicate 31 0)
      = 255 :: List.replicate 31 0 :=
  claim_C6_sub_add_inverse _ _ (by decide) (by decide)

/-- C7: every opcode with a stack-operand requirement (ADD/MUL/SUB: 2,
POP: 1, MSTORE/RETURN: 2, DUPn: n, SWAPn: n+1, per `reqHeight`) checks the
height before popping anything; on violation the step faults
`UnexpectedNumArgs` with the stack (and memory, and the other frames)
exactly as they were — only the opcode fetch advanced `Pc` by 1. -/
theorem claim_C7_underflow (code : List Nat) (pc : Nat) (stack : List (List Nat))
    (mem : List Nat) (rest : List EVMFrame) (rd : List Nat) (N : Nat)
    (hpc : pc < code.length) (hreq : reqHeight (code.getD pc 0) = some N)
    (hlt : stack.length < N) :
    step ⟨⟨code, pc, stack, mem⟩ :: rest, rd⟩
      = .fault .UnexpectedNumArgs ⟨⟨code, pc + 1, stack, mem⟩ :: rest, rd⟩ :=
  step_underflow_fault code pc stack mem rest rd N hpc hreq hlt

/-- C7 witness: ADD on an empty stack faults `UnexpectedNumArgs` with the
stack still empty. -/
theorem claim_C7_underflow_witness :
    step ⟨[⟨[0x01], 0, [], []⟩], []⟩
      = .fault .UnexpectedNumArgs ⟨[⟨[0x01], 0 + 1, [], []⟩], []⟩ :=
  claim_C7_underflow [0x01] 0 [] [] [] [] 2 (by decide) (by decide) (by decide)

/-- C8: per-frame memory starts empty and never shrinks: `growMem` (the
only resize, used by MSTORE and RETURN) never reduces the length and
zero-fills every newly exposed byte, and every continuing step leaves the
current frame's memory at least as long as before (frames below the
current one are untouched). -/
theorem claim_C8_memory_growth :
    (∀ (m : List Nat) (need : Nat), m.length ≤ (growMem m need).length) ∧
    (∀ (m : List Nat) (need i : Nat), m.length ≤ i → i < (growMem m need).length →
      (growMem m need).getD i 0 = 0) ∧
    (∀ code : List Nat, (initState code).frames.map (fun fr => fr.memory) = [[]]) ∧
    (∀ (f : EVMFrame) (rest : List EVMFrame) (rd : List Nat) (s' : MachState),
      step ⟨f :: rest, rd⟩ = .next s' →
      s'.frames = rest ∨
      ∃ f', s'.frames = f' :: rest ∧ f.memory.length ≤ f'.memory.length) :=
  ⟨growMem_len_ge, growMem_getD_new, fun _ => rfl, step_memory_mono⟩

/-- C8 witness: the growth facts applied at a concrete memory. -/
theorem claim_C8_memory_growth_witness :
    ([7, 9] : List Nat).length ≤ (growMem [7, 9] 5).length ∧
    (growMem [7, 9] 5).getD 3 0 = 0 :=
  ⟨claim_C8_memory_growth.1 [7, 9] 5,
    claim_C8_memory_growth.2.1 [7, 9] 5 3 (by decide) (by decide)⟩

/-- C9: no handler checks stack capacity before pushing: a PUSH1 step from
a stack already at `MAX_STACK` (1024) succeeds — `EVMFrame::push` is
invoked with `Sp = MAX_STACK`, violating its asserted precondition
`Sp < MAX_STACK` — raising none of the three fault kinds and leaving
height 1025; and such a state is reached by running 1024 steps of the
program of 1025 consecutive `PUSH1 0x00` instructions. -/
theorem claim_C9_stack_overflow_unchecked :
    (∀ (code : List Nat) (pc : Nat) (stack : List (List Nat)) (mem : List Nat)
      (rest : List EVMFrame) (rd : List Nat),
      pc < code.length → code.getD pc 0 = 0x60 → pc + 2 ≤ code.length →
      stack.length = MAX_STACK →
      step ⟨⟨code, pc, stack, mem⟩ :: rest, rd⟩
        = .next ⟨⟨code, pc + 2, pushWord code (pc + 1) 1 :: stack, mem⟩ :: rest, rd⟩ ∧
      (pushWord code (pc + 1) 1 :: stack).length = MAX_STACK + 1) ∧
    stepN MAX_STACK (initState (pushProg 1025))
      = ⟨[⟨pushProg 1025, 2 * MAX_STACK, List.replicate MAX_STACK zeroWord, []⟩], []⟩ ∧
    step ⟨[⟨pushProg 1025, 2 * MAX_STACK, List.replicate MAX_STACK zeroWord, []⟩], []⟩
      = .next ⟨[⟨pushProg 1025, 2 * MAX_STACK + 2,
          List.replicate (MAX_STACK + 1) zeroWord, []⟩], []⟩ := by
  refine ⟨?_, ?_, ?_⟩
  · intro code pc stack mem rest rd hpc hop hfit hfull
    have h1 := step_eq_push code pc stack mem rest rd 0x60 hpc hop (by omega) (by omega)
      (by omega)
    have hone : (0x60 : Nat) - 0x5F = 1 := by norm_num
    rw [hone] at h1
    have hpc2 : pc + 1 + 1 = pc + 2 := by omega
    rw [hpc2] at h1
    exact ⟨h1, by simp [hfull]⟩
  · have h2 := pushRunAux MAX_STACK 0 1025 (by decide)
    simp only [Nat.zero_add] at h2
    exact h2
  · have hlen := pushProg_length 1025
    have hop : (pushProg 1025).getD (2 * MAX_STACK) 0 = 0x60 := by
      rw [pushProg_getD 1025 (2 * MAX_STACK) (by decide)]
      decide
    have hodd : (pushProg 1025).getD (2 * MAX_STACK + 1) 0 = 0 := by
      rw [pushProg_getD 1025 (2 * MAX_STACK + 1) (by decide)]
      decide
    have h3 := step_eq_push (pushProg 1025) (2 * MAX_STACK)
      (List.replicate MAX_STACK zeroWord) [] [] [] 0x60
      (by rw [hlen]; decide) hop (by decide) (by decide) (by rw [hlen]; decide)
    have hone : (0x60 : Nat) - 0x5F = 1 := by norm_num
    rw [hone] at h3
    rw [h3, pushWord_one_zero _ _ hodd]
    have hpc2 : 2 * MAX_STACK + 1 + 1 = 2 * MAX_STACK + 2 := by omega
    rw [hpc2, ← List.replicate_succ]

/-- C9 witness: the unchecked push applied at a concrete full-stack state. -/
theorem claim_C9_stack_overflow_unchecked_witness :
    step ⟨[⟨[0x60, 0x00], 0, List.replicate MAX_STACK zeroWord, []⟩], []⟩
      = .next ⟨[⟨[0x60, 0x00], 0 + 2,
          pushWord [0x60, 0x00] (0 + 1) 1 :: List.replicate MAX_STACK zeroWord, []⟩], []⟩ ∧
    (pushWord [0x60, 0x00] (0 + 1) 1 :: List.replicate MAX_STACK zeroWord).length
      = MAX_STACK + 1 :=
  claim_C9_stack_overflow_unchecked.1 [0x60, 0x00] 0 (List.replicate MAX_STACK zeroWord)
    [] [] [] (by decide) (by decide) (by decide) (by simp [MAX_STACK])

/-- C10: for well-formed words the carry-propagation loop of MUL never
writes past index 63 of the 64-entry `Temp` array: `mulOk` — which is
`false` exactly when some inner `while (Carry)` loop would still hold a
nonzero carry at the end of `Temp` (a write at index > 63) — is `true`. -/
theorem claim_C10_mul_carry_bounds (A B : List Nat) (hA : WordWf A) (hB : WordWf B) :
    mulOk A B = true :=
  (mulLoop_spec A B hA hB).2.2.2

/-- C10 witness at concrete words. -/
theorem claim_C10_mul_carry_bounds_witness :
    mulOk (List.replicate 32 255) (List.replicate 32 255) = true :=
  claim_C10_mul_carry_bounds _ _ (by decide) (by decide)

end DTVM
